import Mathlib

/-!
Shallow embedding of the two secret-reconstruction scripts of this repository,
`src/index.js` and `src/index2.js`, together with proofs about them.

The scripts reconstruct the constant term of a polynomial of degree `k - 1`
from `k` sample points whose y-values are digit strings in bases 2..36.
`index2.js` works in exact rational arithmetic over BigInt fractions;
`index.js` works in floating point with partial pivoting.

Embedding conventions:
* JS `BigInt` is embedded as `ℤ`; BigInt `%` is truncated remainder
  (`Int.tmod`) and BigInt `/` is truncated division (`Int.tdiv`).
* JS numbers appearing as matrix entries of the approximate solver are
  embedded as `ℚ` (exact real-closed-field idealization of IEEE doubles;
  the properties proved about that solver below depend only on operations
  that are exact in IEEE arithmetic as well: `x / x = 1`, `a - a = 0`,
  `0 * x = 0`, comparisons with `0`).
* JS arrays are embedded as total functions out of `ℕ` together with an
  explicit length, or as `List`s; out-of-range reads are never performed by
  the embedded code on the inputs the theorems speak about.
* `throw`-ing JS functions return `Except Err`.
* JS `while`/`for` loops are embedded as structurally recursive functions
  over an explicit iteration count, so that everything evaluates by `decide`.
-/

namespace Hive

/-- Error taxonomy of the scripts.  Each constructor corresponds to one of the
`throw new Error(...)` sites of the source: `invalidDigit` to
`"Invalid digit: " + ch` in `parseInBase`, `unsupportedBase` to
`"Unsupported base ..."` in `parseInput` of `index.js`, `zeroDenominator` to
`"Zero denominator"` in `makeFrac` (the single exact-arithmetic error site,
which the spec names ZeroDenominator / DivisionByZero), and `singularMatrix`
to `"Singular matrix encountered while solving linear system"` in
`solveLinearSystem` of `index.js`. -/
inductive Err where
  | invalidDigit (c : Char)
  | unsupportedBase
  | zeroDenominator
  | singularMatrix
  deriving DecidableEq

deriving instance DecidableEq for Except

/-- The digit alphabet `DIGITS` of `src/index2.js`. -/
def DIGITS : String := "0123456789abcdefghijklmnopqrstuvwxyz"

/-- JS `DIGITS.indexOf(ch)`: the first index of `ch` in the digit alphabet,
`-1` when `ch` does not occur. -/
def digitIndex (ch : Char) : ℤ :=
  match DIGITS.toList.indexOf? ch with
  | some i => (i : ℤ)
  | none => -1

/-- The `for (const ch of s)` loop body of `parseInBase`:
`result = result * B + BigInt(v)` with an `InvalidDigit` throw when
`DIGITS.indexOf(ch) < 0`. -/
def parseLoop (B : ℤ) : List Char → ℤ → Except Err ℤ
  | [], result => .ok result
  | ch :: rest, result =>
    let v := digitIndex ch
    if v < 0 then .error (.invalidDigit ch)
    else parseLoop B rest (result * B + v)

/-- `parseInBase(s, base)` from `src/index2.js`: lowercase the string, then
accumulate `result = result * B + digit` left to right.  Note the source
checks only `v < 0` (character absent from the alphabet); it performs no
check that the digit value is `< base`, and no check on `base` itself. -/
def parseInBase (s : String) (base : ℤ) : Except Err ℤ :=
  parseLoop base (s.toList.map Char.toLower) 0

/-- The `while (b !== 0)` Euclidean loop of `gcd` in `src/index2.js`, with an
explicit fuel argument (the loop strictly decreases `|b|`, so `|b|` steps of
fuel always suffice; see `gcdLoop_eq_gcd`).  On exhausted fuel (never reached
from `gcd` below) it returns the same `a < 0 ? -a : a` as the loop exit. -/
def gcdLoop : ℕ → ℤ → ℤ → ℤ
  | 0, a, _ => if a < 0 then -a else a
  | fuel + 1, a, b =>
    if b = 0 then (if a < 0 then -a else a)
    else gcdLoop fuel b (Int.tmod a b)

/-- `gcd(a, b)` from `src/index2.js`: Euclidean algorithm over BigInt with
truncated remainder, returning a non-negative result. -/
def gcd (a b : ℤ) : ℤ := gcdLoop b.natAbs a b

/-- The rational-number record `{num, den}` of `src/index2.js`. -/
structure Frac where
  num : ℤ
  den : ℤ
  deriving DecidableEq

/-- `makeFrac(num, den)` from `src/index2.js` (the source gives `den` the
default value `1n`; call sites of the default are embedded as `makeFrac n 1`):
throw on a zero denominator, divide both components by their gcd (BigInt `/`
is truncated division) and move the sign to the numerator. -/
def makeFrac (num : ℤ) (den : ℤ) : Except Err Frac :=
  if den = 0 then .error .zeroDenominator
  else
    let g := gcd num den
    let num1 := num.tdiv g
    let den1 := den.tdiv g
    if den1 < 0 then .ok ⟨-num1, -den1⟩ else .ok ⟨num1, den1⟩

/-- `add(a, b)` from `src/index2.js`. -/
def Frac.add (a b : Frac) : Except Err Frac :=
  makeFrac (a.num * b.den + b.num * a.den) (a.den * b.den)

/-- `sub(a, b)` from `src/index2.js`. -/
def Frac.sub (a b : Frac) : Except Err Frac :=
  makeFrac (a.num * b.den - b.num * a.den) (a.den * b.den)

/-- `mul(a, b)` from `src/index2.js`. -/
def Frac.mul (a b : Frac) : Except Err Frac :=
  makeFrac (a.num * b.num) (a.den * b.den)

/-- `div(a, b)` from `src/index2.js`: `a.num * b.den / (a.den * b.num)`.
When the divisor is the zero rational this calls `makeFrac` with denominator
`0`, hence throws the zero-denominator error. -/
def Frac.div (a b : Frac) : Except Err Frac :=
  makeFrac (a.num * b.den) (a.den * b.num)

/-- The canonical-form invariant of the Rational Number data model:
positive denominator and coprime components. -/
def Frac.Canonical (f : Frac) : Prop := 0 < f.den ∧ Int.gcd f.num f.den = 1

instance : DecidablePred Frac.Canonical := fun f =>
  inferInstanceAs (Decidable (0 < f.den ∧ Int.gcd f.num f.den = 1))

/-- Abstraction of a canonical `Frac` into Lean's `ℚ` (which is itself a
reduced numerator/denominator pair). -/
def liftF (q : ℚ) : Frac := ⟨q.num, (q.den : ℤ)⟩

/-! ### The exact solver `solve` of `src/index2.js` -/

/-- Matrices are embedded as total functions `ℕ → ℕ → α` with an explicit
dimension `n` (the source takes `n = matrix.length`). -/
abbrev MatF := ℕ → ℕ → Frac

abbrev VecF := ℕ → Frac

/-- The JS destructuring swap `[v[i], v[j]] = [v[j], v[i]]`, for rows of a
matrix or entries of a vector. -/
def swapIdx {α : Type _} (v : ℕ → α) (i j : ℕ) : ℕ → α :=
  fun r => if r = i then v j else if r = j then v i else v r

/-- The pivot search of `solve`: `let pivot = col;` then scan
`r = col .. n-1` and break at the first row whose entry in column `col` has a
non-zero numerator. -/
def findPivot (M : MatF) (col n : ℕ) : ℕ :=
  (((List.range' col (n - col)).find? fun r => (M r col).num != 0).getD col)

/-- The inner `for (let c = col; c < n; c++)` loop of the elimination step:
`matrix[r][c] = sub(matrix[r][c], mul(factor, matrix[col][c]))`, over `cnt`
columns starting at `c`.  `prow` is the pivot row (never modified by the
loop since `r > col`). -/
def elimEntriesF (factor : Frac) (prow : ℕ → Frac) : ℕ → ℕ → (ℕ → Frac) → Except Err (ℕ → Frac)
  | _, 0, row => .ok row
  | c, cnt + 1, row => do
    let m ← Frac.mul factor (prow c)
    let v ← Frac.sub (row c) m
    elimEntriesF factor prow (c + 1) cnt (Function.update row c v)

/-- The `for (let r = col + 1; r < n; r++)` elimination loop of `solve`:
skip rows whose column-`col` numerator is zero, otherwise compute
`factor = div(matrix[r][col], matrix[col][col])`, update the row, and update
`rhs[r] = sub(rhs[r], mul(factor, rhs[col]))`. -/
def elimRowsF (col n : ℕ) : ℕ → ℕ → MatF → VecF → Except Err (MatF × VecF)
  | _, 0, M, rhs => .ok (M, rhs)
  | r, cnt + 1, M, rhs =>
    if (M r col).num == 0 then elimRowsF col n (r + 1) cnt M rhs
    else do
      let factor ← Frac.div (M r col) (M col col)
      let newRow ← elimEntriesF factor (M col) col (n - col) (M r)
      let m ← Frac.mul factor (rhs col)
      let newRhs ← Frac.sub (rhs r) m
      elimRowsF col n (r + 1) cnt (Function.update M r newRow) (Function.update rhs r newRhs)

/-- The `for (let col = 0; col < n; col++)` forward-elimination loop of
`solve`: find the pivot, swap rows (and rhs entries) when `pivot !== col`,
then eliminate below. -/
def forwardF (n : ℕ) : ℕ → ℕ → MatF → VecF → Except Err (MatF × VecF)
  | _, 0, M, rhs => .ok (M, rhs)
  | col, cnt + 1, M, rhs =>
    let pivot := findPivot M col n
    let M1 := if pivot ≠ col then swapIdx M col pivot else M
    let rhs1 := if pivot ≠ col then swapIdx rhs col pivot else rhs
    match elimRowsF col n (col + 1) (n - (col + 1)) M1 rhs1 with
    | .error e => .error e
    | .ok (M2, rhs2) => forwardF n (col + 1) cnt M2 rhs2

/-- The `for (let j = i + 1; j < n; j++)` accumulation of back substitution:
`sum = add(sum, mul(matrix[i][j], x[j]))` over `cnt` columns from `j`. -/
def sumLoopF (M : MatF) (x : ℕ → Frac) (i : ℕ) : ℕ → ℕ → Frac → Except Err Frac
  | _, 0, s => .ok s
  | j, cnt + 1, s => do
    let m ← Frac.mul (M i j) (x j)
    let s1 ← Frac.add s m
    sumLoopF M x i (j + 1) cnt s1

/-- The `for (let i = n - 1; i >= 0; i--)` back-substitution loop of `solve`:
`x[i] = div(sub(rhs[i], sum), matrix[i][i])`.  The argument is `i + 1` for
the iteration handling index `i`. -/
def backLoopF (M : MatF) (rhs : VecF) (n : ℕ) : ℕ → (ℕ → Frac) → Except Err (ℕ → Frac)
  | 0, x => .ok x
  | i + 1, x => do
    let z ← makeFrac 0 1
    let s ← sumLoopF M x i (i + 1) (n - (i + 1)) z
    let d ← Frac.sub (rhs i) s
    let xi ← Frac.div d (M i i)
    backLoopF M rhs n i (Function.update x i xi)

/-- `solve(matrix, rhs)` from `src/index2.js`: Gaussian elimination over
rational numbers, first-non-zero pivoting, then back substitution into the
array `x` initialized with `makeFrac(0n, 1n)`; returns the array `x`. -/
def solve (n : ℕ) (matrix : MatF) (rhs : VecF) : Except Err (List Frac) := do
  let (M, b) ← forwardF n 0 n matrix rhs
  let z ← makeFrac 0 1
  let x ← backLoopF M b n n (fun _ => z)
  return (List.range n).map x

/-! ### The approximate solver `solveLinearSystem` of `src/index.js`
(floating point idealized as `ℚ`) -/

abbrev MatQ := ℕ → ℕ → ℚ

abbrev VecQ := ℕ → ℚ

/-- The partial-pivot scan of `solveLinearSystem`: starting from
`maxRow = k, maxVal = |M[k][k]|`, scan `r = k+1 .. n-1` and update on a
strictly larger `|M[r][k]|`.  `best` is the pair `(maxRow, maxVal)`. -/
def findMaxLoop (M : MatQ) (colK : ℕ) : ℕ → ℕ → ℕ × ℚ → ℕ × ℚ
  | _, 0, best => best
  | r, cnt + 1, best =>
    let val := |M r colK|
    findMaxLoop M colK (r + 1) cnt (if best.2 < val then (r, val) else best)

/-- The inner `for (let j = k; j < n; j++)` update loop of
`solveLinearSystem`: `M[i][j] -= factor * M[k][j]`. -/
def elimEntriesA (factor : ℚ) (prow : ℕ → ℚ) : ℕ → ℕ → (ℕ → ℚ) → (ℕ → ℚ)
  | _, 0, row => row
  | c, cnt + 1, row =>
    elimEntriesA factor prow (c + 1) cnt (Function.update row c (row c - factor * prow c))

/-- The `for (let i = k + 1; i < n; i++)` elimination loop of
`solveLinearSystem` (no zero-skip in this variant):
`factor = M[i][k] / M[k][k]`, update row `i` and `y[i] -= factor * y[k]`. -/
def elimRowsA (colK n : ℕ) : ℕ → ℕ → MatQ → VecQ → MatQ × VecQ
  | _, 0, M, y => (M, y)
  | i, cnt + 1, M, y =>
    let factor := M i colK / M colK colK
    let newRow := elimEntriesA factor (M colK) colK (n - colK) (M i)
    elimRowsA colK n (i + 1) cnt (Function.update M i newRow)
      (Function.update y i (y i - factor * y colK))

/-- The forward loop of `solveLinearSystem`: partial pivot by largest
absolute value, throw `SingularMatrix` when that largest value is exactly
`0`, swap when `maxRow !== k`, eliminate below. -/
def forwardA (n : ℕ) : ℕ → ℕ → MatQ → VecQ → Except Err (MatQ × VecQ)
  | _, 0, M, y => .ok (M, y)
  | k, cnt + 1, M, y =>
    let best := findMaxLoop M k (k + 1) (n - (k + 1)) (k, |M k k|)
    if best.2 = 0 then .error .singularMatrix
    else
      let M1 := if best.1 ≠ k then swapIdx M k best.1 else M
      let y1 := if best.1 ≠ k then swapIdx y k best.1 else y
      let p := elimRowsA k n (k + 1) (n - (k + 1)) M1 y1
      forwardA n (k + 1) cnt p.1 p.2

/-- The `for (let j = i + 1; j < n; j++) sum += M[i][j] * x[j]` accumulation
of back substitution, shared shape with the `ℚ`-level mirror below. -/
def dotSeg (M : MatQ) (x : ℕ → ℚ) (i : ℕ) : ℕ → ℕ → ℚ → ℚ
  | _, 0, s => s
  | j, cnt + 1, s => dotSeg M x i (j + 1) cnt (s + M i j * x j)

/-- The back-substitution loop of `solveLinearSystem`:
`x[i] = (y[i] - sum) / M[i][i]`.  (In the reachable success path every
diagonal entry is non-zero — the singular check threw otherwise — so the
total `ℚ` division is a faithful rendering.) -/
def backLoopA (M : MatQ) (y : VecQ) (n : ℕ) : ℕ → (ℕ → ℚ) → (ℕ → ℚ)
  | 0, x => x
  | i + 1, x =>
    backLoopA M y n i
      (Function.update x i ((y i - dotSeg M x i (i + 1) (n - (i + 1)) 0) / M i i))

/-- `solveLinearSystem(A, b)` from `src/index.js`: make a private copy of the
inputs (`A.map(row => row.slice())`, `b.slice()`; value-level the copies
equal the inputs — the aliasing structure is modelled separately by the heap
embedding below), run partial-pivoting Gaussian elimination, then back
substitution over the array `x` initialized with zeros. -/
def solveLinearSystem (n : ℕ) (A : MatQ) (b : VecQ) : Except Err (List ℚ) := do
  let M := A
  let y := b
  let (M1, y1) ← forwardA n 0 n M y
  let x := backLoopA M1 y1 n n (fun _ => 0)
  return (List.range n).map x

/-! ### `ℚ`-level mirror of the exact solver

`solveQ` has exactly the control flow of `solve`, with every canonical
fraction replaced by the rational number it denotes: `num ≠ 0` tests become
`≠ 0` tests, the row operations become field operations, and the single
reachable throw site (`div` by a zero rational in back substitution, i.e.
`makeFrac` with denominator `0`) becomes an explicit check.  The simulation
theorem `solve_eq_solveQ` below proves `solve` equal to it on canonical
inputs. -/

/-- Mirror of `findPivot` over `ℚ`. -/
def pivotQ (M : MatQ) (col n : ℕ) : ℕ :=
  (((List.range' col (n - col)).find? fun r => M r col != 0).getD col)

/-- Pointwise form of one column's elimination of `solve` over `ℚ`: rows
`col < r < n` with `M r col ≠ 0` get `M r c - (M r col / M col col) * M col c`
on columns `col ≤ c < n`. -/
def elimStepQ (n col : ℕ) (M : MatQ) : MatQ := fun r c =>
  if col < r ∧ r < n ∧ M r col ≠ 0 ∧ col ≤ c ∧ c < n then
    M r c - M r col / M col col * M col c
  else M r c

/-- Pointwise form of one column's rhs update of `solve` over `ℚ`. -/
def elimVecQ (n col : ℕ) (M : MatQ) (b : VecQ) : VecQ := fun r =>
  if col < r ∧ r < n ∧ M r col ≠ 0 then b r - M r col / M col col * b col else b r

/-- Mirror of the forward elimination of `solve` over `ℚ`. -/
def forwardQ (n : ℕ) : ℕ → ℕ → MatQ → VecQ → MatQ × VecQ
  | _, 0, M, b => (M, b)
  | col, cnt + 1, M, b =>
    let p := pivotQ M col n
    let M1 := swapIdx M col p
    let b1 := swapIdx b col p
    forwardQ n (col + 1) cnt (elimStepQ n col M1) (elimVecQ n col M1 b1)

/-- Mirror of the back substitution of `solve` over `ℚ`; the division
`div(..., matrix[i][i])` throws the zero-denominator error exactly when the
diagonal entry is the zero rational. -/
def backQ (M : MatQ) (b : VecQ) (n : ℕ) : ℕ → (ℕ → ℚ) → Except Err (ℕ → ℚ)
  | 0, x => .ok x
  | i + 1, x =>
    if M i i = 0 then .error .zeroDenominator
    else backQ M b n i
      (Function.update x i ((b i - dotSeg M x i (i + 1) (n - (i + 1)) 0) / M i i))

/-- Mirror of `solve` over `ℚ`. -/
def solveQ (n : ℕ) (M : MatQ) (b : VecQ) : Except Err (List ℚ) := do
  let p := forwardQ n 0 n M b
  let x ← backQ p.1 p.2 n n (fun _ => 0)
  return (List.range n).map x

/-- Matrix abstraction: a matrix of canonical fractions is the image of a
matrix of rationals. -/
def liftM (M : MatQ) : MatF := fun r c => liftF (M r c)

/-- Vector abstraction. -/
def liftV (v : VecQ) : VecF := fun i => liftF (v i)

/-! ### The system builder of `src/index.js` and the entry pipeline of
`src/index2.js` -/

/-- The inner `for (let j = 0; j < k; j++) { A[i][j] = pow; pow *= xi; }`
loop of `buildSystem`: the row `[pow, pow*xi, ...]` of length `m` starting
from accumulator `pow`. -/
def powRow (xi : ℚ) : ℕ → ℚ → List ℚ
  | 0, _ => []
  | j + 1, pow => pow :: powRow xi j (pow * xi)

/-- `buildSystem(points, degree)` from `src/index.js`: `k = degree + 1`,
row `i` of `A` is the Vandermonde row of `points[i].x`, `b[i] = points[i].y`.
Array reads use the JS convention embedded as `getD` with a junk default
(the source is only invoked with exactly `k` points). -/
def buildSystem (points : List (ℚ × ℚ)) (degree : ℕ) : List (List ℚ) × List ℚ :=
  let k := degree + 1
  ((List.range k).map fun i => powRow (points.getD i (0, 0)).1 k 1,
   (List.range k).map fun i => (points.getD i (0, 0)).2)

/-- The decode loop of `main` in `src/index2.js`:
`for (let i = 1; i <= k; i++) { y = parseInBase(data[i].value, base); points.push({x: BigInt(i), y}); }`,
with `cnt` iterations remaining starting at index `i`. -/
def decodePoints (vals : ℕ → String) (bases : ℕ → ℤ) : ℕ → ℕ → Except Err (List (ℤ × ℤ))
  | _, 0 => .ok []
  | i, cnt + 1 => do
    let y ← parseInBase (vals i) (bases i)
    let rest ← decodePoints vals bases (i + 1) cnt
    return ((i : ℤ), y) :: rest

/-- The inner row-construction loop of `main` in `src/index2.js`:
`for j: A[i][j] = makeFrac(xpow); xpow *= points[i].x;`. -/
def buildRowF (x : ℤ) : ℕ → ℤ → Except Err (List Frac)
  | 0, _ => .ok []
  | j + 1, xpow => do
    let e ← makeFrac xpow 1
    let rest ← buildRowF x j (xpow * x)
    return e :: rest

/-- The Vandermonde matrix built by `main` in `src/index2.js`. -/
def buildMatF (points : List (ℤ × ℤ)) (k : ℕ) : Except Err (List (List Frac)) :=
  (List.range k).mapM fun i => buildRowF (points.getD i (0, 0)).1 k 1

/-- The right-hand side built by `main` in `src/index2.js`:
`b[i] = makeFrac(points[i].y)`. -/
def buildRhsF (points : List (ℤ × ℤ)) (k : ℕ) : Except Err (List Frac) :=
  (List.range k).mapM fun i => makeFrac (points.getD i (0, 0)).2 1

/-- The computational core of `main` in `src/index2.js` (file I/O and JSON
parsing excluded): decode the first `k` points `(i, parseInBase(vals i, bases i))`
for `i = 1..k`, build the Vandermonde system (arrays are pre-filled with
`makeFrac(0n)`, embedded as the `getD` default `⟨0, 1⟩`), and run `solve`.
Returns the coefficient vector; `main` prints `coeff[0].num / coeff[0].den`. -/
def runMain (k : ℕ) (vals : ℕ → String) (bases : ℕ → ℤ) : Except Err (List Frac) := do
  let points ← decodePoints vals bases 1 k
  let A ← buildMatF points k
  let b ← buildRhsF points k
  solve k (fun i j => (A.getD i []).getD j ⟨0, 1⟩) (fun i => b.getD i ⟨0, 1⟩)

/-- The base validation of `parseInput` in `src/index.js`:
`if (!Number.isInteger(baseNum) || baseNum < 2 || baseNum > 36) throw UnsupportedBase`.
The JS number `baseNum` is embedded as `ℚ`; `Number.isInteger` is `den = 1`. -/
def validateBase (baseNum : ℚ) : Except Err Unit :=
  if ¬baseNum.den = 1 ∨ baseNum < 2 ∨ 36 < baseNum then .error .unsupportedBase
  else .ok ()

/-! ### Reference encoder (test-harness side, not part of the source)

The round-trip claim quantifies over encodings of the sample values as digit
strings; the repository contains no encoder, so a standard base-`b` encoder
is provided here to witness the encodings. -/

/-- The digit character for value `d < 36`, from the `DIGITS` alphabet. -/
def digitChar36 (d : ℕ) : Char := DIGITS.toList.getD d '?'

/-- Digit string of `m` in base `b`, most significant first, empty for `0`
(the decoder maps the empty string to `0`).  Fueled recursion on `m / b`. -/
def encChars (b : ℕ) : ℕ → ℕ → List Char
  | 0, _ => []
  | fuel + 1, m => if m = 0 then [] else encChars b fuel (m / b) ++ [digitChar36 (m % b)]

/-- Base-`b` digit string of the non-negative integer `m`. -/
def natToBase (b : ℕ) (m : ℕ) : String := ⟨encChars b (m + 1) m⟩

/-- Encoder entry point used by the round-trip theorem. -/
def encodeInt (b : ℤ) (m : ℤ) : String := natToBase b.toNat m.toNat

/-! ### Spec-side notions for the solver metatheory -/

/-- Evaluation of the integer polynomial with coefficients `a 0, ..., a (k-1)`
at `x`. -/
def Peval (a : ℕ → ℤ) (k : ℕ) (x : ℤ) : ℤ := ∑ j ∈ Finset.range k, a j * x ^ j

/-- `x` solves the `n × n` linear system `M ⬝ x = b`. -/
def SolvesQ (n : ℕ) (M : MatQ) (b : VecQ) (x : ℕ → ℚ) : Prop :=
  ∀ i < n, (∑ c ∈ Finset.range n, M i c * x c) = b i

/-- The rational Vandermonde matrix at nodes `1, ..., k` (entries outside the
`k × k` block are `0`, matching the `getD` defaults of the embedding). -/
def vandQ (k : ℕ) : MatQ := fun i j =>
  if i < k ∧ j < k then (((i + 1 : ℕ)) : ℚ) ^ j else 0

/-- The rational right-hand side `P(1), ..., P(k)` of the Vandermonde system. -/
def vandRhs (a : ℕ → ℤ) (k : ℕ) : VecQ := fun i =>
  if i < k then ((Peval a k ((1 + i : ℕ) : ℤ)) : ℚ) else 0

/-- The coefficient vector of `P`, viewed in `ℚ`. -/
def coeffQ (a : ℕ → ℤ) : ℕ → ℚ := fun j => ((a j : ℤ) : ℚ)

/-- Kernel vector exhibited when forward elimination meets an all-zero pivot
column `col` while the first `col` columns are already in echelon form with
non-zero diagonal: entry `1` at `col`, `0` above `col`, and back-substituted
values below. -/
def kernelVec (M : MatQ) (col : ℕ) (j : ℕ) : ℚ :=
  if j = col then 1
  else if col < j then 0
  else -(∑ c ∈ (Finset.Ioc j col).attach, M j c.1 * kernelVec M col c.1) / M j j
termination_by col - j
decreasing_by
  have hc := Finset.mem_Ioc.mp c.2
  omega

/-- Pointwise description of what `elimRowsF`/`elimRowsA` do to the matrix:
rows `r ≤ t < r + cnt` with non-zero entry in column `col` get the
elimination update on columns `col ≤ c < n`. -/
def pElim (M : MatQ) (col n r cnt : ℕ) : MatQ := fun t c =>
  if r ≤ t ∧ t < r + cnt ∧ M t col ≠ 0 ∧ col ≤ c ∧ c < n then
    M t c - M t col / M col col * M col c
  else M t c

/-- Pointwise description of the rhs update of `elimRowsF`. -/
def pElimV (M : MatQ) (b : VecQ) (col r cnt : ℕ) : VecQ := fun t =>
  if r ≤ t ∧ t < r + cnt ∧ M t col ≠ 0 then b t - M t col / M col col * b col else b t

/-- Pointwise description of `elimRowsA` (the `index.js` variant has no
zero-skip; `ℚ` division is total, so the formula needs no pivot guard). -/
def pElimA (M : MatQ) (colK n r cnt : ℕ) : MatQ := fun t c =>
  if r ≤ t ∧ t < r + cnt ∧ colK ≤ c ∧ c < n then
    M t c - M t colK / M colK colK * M colK c
  else M t c

/-- Pointwise description of the rhs update of `elimRowsA`. -/
def pElimVA (M : MatQ) (y : VecQ) (colK r cnt : ℕ) : VecQ := fun t =>
  if r ≤ t ∧ t < r + cnt then y t - M t colK / M colK colK * y colK else y t

/-- Two distinct rows of the active region (rows and columns `≥ col`) are
equal. -/
def DupPair (n col : ℕ) (M : MatQ) : Prop :=
  ∃ p q, col ≤ p ∧ col ≤ q ∧ p ≠ q ∧ p < n ∧ q < n ∧
    ∀ c, col ≤ c → c < n → M p c = M q c

/-- Some row of the active region is zero on the active columns. -/
def ZeroRowBelow (n col : ℕ) (M : MatQ) : Prop :=
  ∃ p, col ≤ p ∧ p < n ∧ ∀ c, col ≤ c → c < n → M p c = 0

/-- A processed column was left with a zero diagonal entry (the exact
solver's silent singular case; back substitution will divide by it). -/
def DeadDiag (col : ℕ) (M : MatQ) : Prop := ∃ c, c < col ∧ M c c = 0

/-- Forward-elimination invariant of the exact solver on a singular input. -/
def ElimInv (n col : ℕ) (M : MatQ) : Prop :=
  DeadDiag col M ∨ DupPair n col M ∨ ZeroRowBelow n col M

/-! ### Heap model of `solveLinearSystem` (for the frame property)

JS arrays are references into a heap.  `solveLinearSystem` receives the
references of the caller's row arrays and right-hand side, copies them into
freshly allocated arrays (`A.map(row => row.slice())`, `b.slice()`), and
mutates only the fresh arrays.  The heap holds one-dimensional `ℚ`-arrays;
the outer array `M` of row references is a fresh local of the call and is
modelled as a threaded value. -/

abbrev Heap := List (List ℚ)

/-- Dereference an array. -/
def hread (h : Heap) (ref : ℕ) : List ℚ := h.getD ref []

/-- Overwrite an array in place. -/
def hwrite (h : Heap) (ref : ℕ) (v : List ℚ) : Heap := h.set ref v

/-- Allocate a fresh array. -/
def halloc (h : Heap) (v : List ℚ) : Heap × ℕ := (h ++ [v], h.length)

/-- Allocate a list of fresh arrays (the `A.map(row => row.slice())` copy). -/
def hallocList (h : Heap) : List (List ℚ) → Heap × List ℕ
  | [] => (h, [])
  | v :: rest =>
    let p := halloc h v
    let q := hallocList p.1 rest
    (q.1, p.2 :: q.2)

/-- Read entry `c` of the array at `ref`. -/
def entryRead (h : Heap) (ref c : ℕ) : ℚ := (hread h ref).getD c 0

/-- Write entry `c` of the array at `ref` in place. -/
def entryWrite (h : Heap) (ref c : ℕ) (v : ℚ) : Heap :=
  hwrite h ref ((hread h ref).set c v)

/-- Row reference `M[r]`. -/
def mref (mrefs : List ℕ) (r : ℕ) : ℕ := mrefs.getD r 0

/-- Heap-level partial-pivot scan (reads only). -/
def findMaxLoopH (h : Heap) (mrefs : List ℕ) (colK : ℕ) : ℕ → ℕ → ℕ × ℚ → ℕ × ℚ
  | _, 0, best => best
  | r, cnt + 1, best =>
    let val := |entryRead h (mref mrefs r) colK|
    findMaxLoopH h mrefs colK (r + 1) cnt (if best.2 < val then (r, val) else best)

/-- Heap-level inner update loop: `M[i][j] -= factor * M[k][j]` writes into
the row array at `rref`. -/
def elimEntriesH (factor : ℚ) (pref rref : ℕ) : ℕ → ℕ → Heap → Heap
  | _, 0, h => h
  | c, cnt + 1, h =>
    let v := entryRead h rref c - factor * entryRead h pref c
    elimEntriesH factor pref rref (c + 1) cnt (entryWrite h rref c v)

/-- Heap-level elimination loop over rows, including the in-place
`y[i] -= factor * y[k]` update of the array at `yref`. -/
def elimRowsH (mrefs : List ℕ) (yref colK n : ℕ) : ℕ → ℕ → Heap → Heap
  | _, 0, h => h
  | i, cnt + 1, h =>
    let factor := entryRead h (mref mrefs i) colK / entryRead h (mref mrefs colK) colK
    let h1 := elimEntriesH factor (mref mrefs colK) (mref mrefs i) colK (n - colK) h
    let h2 := entryWrite h1 yref i
      ((hread h1 yref).getD i 0 - factor * (hread h1 yref).getD colK 0)
    elimRowsH mrefs yref colK n (i + 1) cnt h2

/-- Heap-level forward elimination: the row swap
`[M[k], M[maxRow]] = [M[maxRow], M[k]]` swaps references inside the local
array `M`, the rhs swap writes the array at `yref` in place. -/
def forwardH (yref n : ℕ) : ℕ → ℕ → List ℕ → Heap → Except Err (List ℕ) × Heap
  | _, 0, mrefs, h => (.ok mrefs, h)
  | k, cnt + 1, mrefs, h =>
    let best := findMaxLoopH h mrefs k (k + 1) (n - (k + 1))
      (k, |entryRead h (mref mrefs k) k|)
    if best.2 = 0 then (.error .singularMatrix, h)
    else
      let mrefs1 := if best.1 ≠ k then
          (mrefs.set k (mref mrefs best.1)).set best.1 (mref mrefs k)
        else mrefs
      let h1 := if best.1 ≠ k then
          hwrite h yref
            (((hread h yref).set k ((hread h yref).getD best.1 0)).set best.1
              ((hread h yref).getD k 0))
        else h
      let h2 := elimRowsH mrefs1 yref k n (k + 1) (n - (k + 1)) h1
      forwardH yref n (k + 1) cnt mrefs1 h2

/-- Heap-level back-substitution accumulation (reads only). -/
def dotSegH (h : Heap) (mrefs : List ℕ) (x : ℕ → ℚ) (i : ℕ) : ℕ → ℕ → ℚ → ℚ
  | _, 0, s => s
  | j, cnt + 1, s =>
    dotSegH h mrefs x i (j + 1) cnt (s + entryRead h (mref mrefs i) j * x j)

/-- Heap-level back substitution; `x` is a fresh local array of the call,
modelled as a threaded value (reads the heap, writes nothing). -/
def backLoopH (h : Heap) (mrefs : List ℕ) (yref n : ℕ) : ℕ → (ℕ → ℚ) → (ℕ → ℚ)
  | 0, x => x
  | i + 1, x =>
    backLoopH h mrefs yref n i (Function.update x i
      (((hread h yref).getD i 0 - dotSegH h mrefs x i (i + 1) (n - (i + 1)) 0) /
        entryRead h (mref mrefs i) i))

/-- Heap-level `solveLinearSystem(A, b)`: `A` is passed as the list of its
row references, `b` as one reference; the result is returned together with
the final heap (also on throw, which in JS leaves the heap as it stood). -/
def solveLinearSystemH (h : Heap) (arefs : List ℕ) (bref : ℕ) :
    Except Err (List ℚ) × Heap :=
  let n := arefs.length
  let p := hallocList h (arefs.map fun r => hread h r)
  let q := halloc p.1 (hread p.1 bref)
  match forwardH q.2 n 0 n p.2 q.1 with
  | (.error e, h3) => (.error e, h3)
  | (.ok mrefs1, h3) =>
    let x := backLoopH h3 mrefs1 q.2 n n (fun _ => 0)
    (.ok ((List.range n).map x), h3)

/-! ### Theorems -/

/-! #### gcd and makeFrac -/

theorem natAbs_tmod (a b : ℤ) : (Int.tmod a b).natAbs = a.natAbs % b.natAbs := by
  cases a <;> cases b <;> simp only [Int.tmod, Int.natAbs_neg] <;> rfl

theorem intGcd_tmod (a b : ℤ) : Int.gcd b (Int.tmod a b) = Int.gcd a b := by
  unfold Int.gcd
  rw [natAbs_tmod, Nat.gcd_comm b.natAbs (a.natAbs % b.natAbs),
    ← Nat.gcd_rec b.natAbs a.natAbs, Nat.gcd_comm b.natAbs a.natAbs]

theorem ite_neg_eq_natAbs (a : ℤ) : (if a < 0 then -a else a) = (a.natAbs : ℤ) := by
  split_ifs with h
  · rw [← Int.abs_eq_natAbs, abs_of_neg h]
  · rw [← Int.abs_eq_natAbs, abs_of_nonneg (not_lt.mp h)]

theorem gcdLoop_eq_gcd : ∀ (fuel : ℕ) (a b : ℤ), b.natAbs ≤ fuel →
    gcdLoop fuel a b = (Int.gcd a b : ℤ) := by
  intro fuel
  induction fuel with
  | zero =>
    intro a b hb
    have hb0 : b = 0 := by
      have := Int.natAbs_eq_zero.mp (Nat.le_zero.mp hb)
      exact this
    subst hb0
    show (if a < 0 then -a else a) = (Int.gcd a 0 : ℤ)
    rw [ite_neg_eq_natAbs, Int.gcd_zero_right]
  | succ fuel ih =>
    intro a b hb
    show (if b = 0 then (if a < 0 then -a else a) else gcdLoop fuel b (Int.tmod a b)) = _
    by_cases hb0 : b = 0
    · subst hb0
      rw [if_pos rfl, ite_neg_eq_natAbs, Int.gcd_zero_right]
    · rw [if_neg hb0, ih b (Int.tmod a b) (by
        have h1 : (Int.tmod a b).natAbs = a.natAbs % b.natAbs := natAbs_tmod a b
        have h2 : a.natAbs % b.natAbs < b.natAbs :=
          Nat.mod_lt _ (Nat.pos_of_ne_zero fun h => hb0 (Int.natAbs_eq_zero.mp h))
        omega), intGcd_tmod]

/-- The source-level `gcd` agrees with `Int.gcd`. -/
theorem gcd_eq_intGcd (a b : ℤ) : gcd a b = (Int.gcd a b : ℤ) :=
  gcdLoop_eq_gcd b.natAbs a b le_rfl

/-- On a non-zero denominator, `makeFrac` produces exactly the canonical
reduced fraction of the rational `n / d`. -/
theorem makeFrac_eq (n d : ℤ) (hd : d ≠ 0) :
    makeFrac n d = .ok (liftF ((n : ℚ) / (d : ℚ))) := by
  have hG : 0 < Int.gcd n d := Int.gcd_pos_iff.mpr (Or.inr hd)
  have hgn : ((Int.gcd n d : ℤ)) ∣ n := Int.gcd_dvd_left
  have hgd : ((Int.gcd n d : ℤ)) ∣ d := Int.gcd_dvd_right
  have htn : n.tdiv (gcd n d) = n / (Int.gcd n d : ℤ) := by
    rw [gcd_eq_intGcd, Int.tdiv_eq_ediv_of_dvd hgn]
  have htd : d.tdiv (gcd n d) = d / (Int.gcd n d : ℤ) := by
    rw [gcd_eq_intGcd, Int.tdiv_eq_ediv_of_dvd hgd]
  have hden_ne : d / (Int.gcd n d : ℤ) ≠ 0 := by
    intro h0
    apply hd
    rw [← Int.ediv_mul_cancel hgd, h0, zero_mul]
  have hcop : Int.gcd (n / (Int.gcd n d : ℤ)) (d / (Int.gcd n d : ℤ)) = 1 :=
    Int.gcd_div_gcd_div_gcd hG
  have hz : n / (Int.gcd n d : ℤ) * d = n * (d / (Int.gcd n d : ℤ)) := by
    calc n / (Int.gcd n d : ℤ) * d
        = n / (Int.gcd n d : ℤ) * (d / (Int.gcd n d : ℤ) * (Int.gcd n d : ℤ)) := by
          rw [Int.ediv_mul_cancel hgd]
      _ = n / (Int.gcd n d : ℤ) * (Int.gcd n d : ℤ) * (d / (Int.gcd n d : ℤ)) := by ring
      _ = n * (d / (Int.gcd n d : ℤ)) := by rw [Int.ediv_mul_cancel hgn]
  have hval : ((n / (Int.gcd n d : ℤ) : ℤ) : ℚ) / ((d / (Int.gcd n d : ℤ) : ℤ) : ℚ)
      = (n : ℚ) / (d : ℚ) := by
    rw [div_eq_div_iff (by exact_mod_cast hden_ne) (by exact_mod_cast hd)]
    exact_mod_cast hz
  show (if d = 0 then _ else _) = _
  rw [if_neg hd]
  simp only [htn, htd]
  set N := n / (Int.gcd n d : ℤ) with hN
  set D := d / (Int.gcd n d : ℤ) with hD
  by_cases hDneg : D < 0
  · rw [if_pos hDneg]
    have hvalneg : ((-N : ℤ) : ℚ) / ((-D : ℤ) : ℚ) = (n : ℚ) / (d : ℚ) := by
      push_cast
      rw [neg_div_neg_eq]
      exact_mod_cast hval
    have hDpos : (0 : ℤ) < -D := by omega
    have hcop2 : (-N).natAbs.Coprime (-D).natAbs := by
      simp only [Int.natAbs_neg]
      exact hcop
    have hnum : ((n : ℚ) / (d : ℚ)).num = -N := by
      rw [← hvalneg]
      exact Rat.num_div_eq_of_coprime hDpos hcop2
    have hden : (((n : ℚ) / (d : ℚ)).den : ℤ) = -D := by
      rw [← hvalneg]
      exact Rat.den_div_eq_of_coprime hDpos hcop2
    simp only [liftF, hnum, hden]
  · rw [if_neg hDneg]
    have hDpos : (0 : ℤ) < D := by
      rcases lt_or_eq_of_le (not_lt.mp hDneg) with h | h
      · exact h
      · exact absurd h.symm hden_ne
    have hcop2 : N.natAbs.Coprime D.natAbs := hcop
    have hnum : ((n : ℚ) / (d : ℚ)).num = N := by
      rw [← hval]
      exact Rat.num_div_eq_of_coprime hDpos hcop2
    have hden : (((n : ℚ) / (d : ℚ)).den : ℤ) = D := by
      rw [← hval]
      exact Rat.den_div_eq_of_coprime hDpos hcop2
    simp only [liftF, hnum, hden]

theorem makeFrac_zero_den (n : ℤ) : makeFrac n 0 = .error .zeroDenominator := rfl

/-- Every abstraction of a rational satisfies the canonical-form invariant. -/
theorem liftF_canonical (q : ℚ) : (liftF q).Canonical := by
  constructor
  · show (0 : ℤ) < (q.den : ℤ)
    exact_mod_cast q.pos
  · show Int.gcd q.num ((q.den : ℤ)) = 1
    unfold Int.gcd
    simp only [Int.natAbs_ofNat]
    exact q.reduced

theorem makeFrac_ok (n d : ℤ) (hd : d ≠ 0) :
    ∃ f, makeFrac n d = .ok f ∧ f.Canonical :=
  ⟨liftF ((n : ℚ) / (d : ℚ)), makeFrac_eq n d hd, liftF_canonical _⟩

/-- Every canonical fraction is the abstraction of the rational it denotes. -/
theorem canonical_eq_liftF (f : Frac) (hf : f.Canonical) :
    f = liftF ((f.num : ℚ) / (f.den : ℚ)) := by
  obtain ⟨hpos, hcop⟩ := hf
  have hnum : ((f.num : ℚ) / (f.den : ℚ)).num = f.num :=
    Rat.num_div_eq_of_coprime hpos hcop
  have hden : (((f.num : ℚ) / (f.den : ℚ)).den : ℤ) = f.den :=
    Rat.den_div_eq_of_coprime hpos hcop
  simp only [liftF, hnum, hden]

theorem liftF_num_eq_zero (q : ℚ) : (liftF q).num = 0 ↔ q = 0 := by
  show q.num = 0 ↔ q = 0
  exact Rat.num_eq_zero

/-! #### Arithmetic on abstractions -/

theorem frac_add_lift (p q : ℚ) :
    Frac.add (liftF p) (liftF q) = .ok (liftF (p + q)) := by
  have hd : ((p.den : ℤ)) * ((q.den : ℤ)) ≠ 0 := by
    have hp := p.den_nz
    have hq := q.den_nz
    positivity
  show makeFrac (p.num * (q.den : ℤ) + q.num * (p.den : ℤ)) ((p.den : ℤ) * (q.den : ℤ)) = _
  rw [makeFrac_eq _ _ hd]
  congr 1
  congr 1
  conv_rhs => rw [← Rat.num_div_den p, ← Rat.num_div_den q]
  rw [div_add_div _ _ (by exact_mod_cast p.den_nz) (by exact_mod_cast q.den_nz)]
  push_cast
  ring_nf

theorem frac_sub_lift (p q : ℚ) :
    Frac.sub (liftF p) (liftF q) = .ok (liftF (p - q)) := by
  have hd : ((p.den : ℤ)) * ((q.den : ℤ)) ≠ 0 := by
    have hp := p.den_nz
    have hq := q.den_nz
    positivity
  show makeFrac (p.num * (q.den : ℤ) - q.num * (p.den : ℤ)) ((p.den : ℤ) * (q.den : ℤ)) = _
  rw [makeFrac_eq _ _ hd]
  congr 1
  congr 1
  conv_rhs => rw [← Rat.num_div_den p, ← Rat.num_div_den q]
  rw [div_sub_div _ _ (by exact_mod_cast p.den_nz) (by exact_mod_cast q.den_nz)]
  push_cast
  ring_nf

theorem frac_mul_lift (p q : ℚ) :
    Frac.mul (liftF p) (liftF q) = .ok (liftF (p * q)) := by
  have hd : ((p.den : ℤ)) * ((q.den : ℤ)) ≠ 0 := by
    have hp := p.den_nz
    have hq := q.den_nz
    positivity
  show makeFrac (p.num * q.num) ((p.den : ℤ) * (q.den : ℤ)) = _
  rw [makeFrac_eq _ _ hd]
  congr 1
  congr 1
  conv_rhs => rw [← Rat.num_div_den p, ← Rat.num_div_den q]
  rw [div_mul_div_comm]
  push_cast
  ring_nf

theorem frac_div_lift (p q : ℚ) (hq : q ≠ 0) :
    Frac.div (liftF p) (liftF q) = .ok (liftF (p / q)) := by
  have hqnum : (q.num : ℚ) ≠ 0 := by exact_mod_cast Rat.num_ne_zero.mpr hq
  have hpden : ((p.den : ℚ)) ≠ 0 := by exact_mod_cast p.den_nz
  have hd : ((p.den : ℤ)) * q.num ≠ 0 := by
    have h1 : ((p.den : ℤ)) ≠ 0 := by exact_mod_cast p.den_nz
    exact mul_ne_zero h1 (Rat.num_ne_zero.mpr hq)
  show makeFrac (p.num * (q.den : ℤ)) ((p.den : ℤ) * q.num) = _
  rw [makeFrac_eq _ _ hd]
  congr 1
  congr 1
  rw [div_eq_div_iff (by exact_mod_cast hd) hq]
  push_cast
  calc (p.num : ℚ) * (q.den : ℚ) * q = (p.num : ℚ) * (q * q.den) := by ring
    _ = (p.num : ℚ) * q.num := by rw [Rat.mul_den_eq_num]
    _ = (p * p.den) * q.num := by rw [Rat.mul_den_eq_num]
    _ = p * ((p.den : ℚ) * q.num) := by ring

theorem frac_div_lift_zero (p : ℚ) :
    Frac.div (liftF p) (liftF 0) = .error .zeroDenominator := by
  show makeFrac (p.num * ((0 : ℚ).den : ℤ)) ((p.den : ℤ) * (0 : ℚ).num) = _
  rw [show ((p.den : ℤ)) * (0 : ℚ).num = 0 by simp]
  exact makeFrac_zero_den _

/-! #### Claims C3, C4, C5, C8, C10 -/

/-- Claim C3 (code bug evaluation): the source decoder accepts the digit
`g` in base 16 and returns 16, because `parseInBase` only checks
`DIGITS.indexOf(ch) < 0` and never compares the digit value with the base;
the spec requires `decode("g", 16)` to fail with `InvalidDigit`. -/
theorem parseInBase_accepts_digit_ge_base : parseInBase "g" 16 = .ok 16 := by decide

/-- Claim C4: `makeFrac` fails with the zero-denominator error exactly on
denominator `0`, and otherwise returns a canonical reduced fraction
(positive denominator, coprime components); `make(4, -8) = (-1, 2)` and
`make(0, 5) = (0, 1)`. -/
theorem makeFrac_spec :
    (∀ n : ℤ, makeFrac n 0 = .error .zeroDenominator) ∧
    (∀ n d : ℤ, d ≠ 0 → ∃ f, makeFrac n d = .ok f ∧ 0 < f.den ∧ Int.gcd f.num f.den = 1) ∧
    makeFrac 4 (-8) = .ok ⟨-1, 2⟩ ∧ makeFrac 0 5 = .ok ⟨0, 1⟩ := by
  refine ⟨makeFrac_zero_den, ?_, by decide, by decide⟩
  intro n d hd
  obtain ⟨f, hf, hc⟩ := makeFrac_ok n d hd
  exact ⟨f, hf, hc.1, hc.2⟩

theorem makeFrac_spec_witness :
    makeFrac 6 0 = .error .zeroDenominator ∧
    ∃ f, makeFrac 7 3 = .ok f ∧ 0 < f.den ∧ Int.gcd f.num f.den = 1 :=
  ⟨makeFrac_spec.1 6, makeFrac_spec.2.1 7 3 (by decide)⟩

/-- Claim C5: on canonical operands, `add`, `sub` and `mul` never throw and
return canonical results; `div` throws exactly when the divisor's numerator
is `0`, in which case the raised error is the zero-denominator error of
`makeFrac` (the source's single exact-arithmetic error site, named
ZeroDenominator / DivisionByZero by the spec).  Operands are untouched:
all four operations build a fresh record via `makeFrac` (immutability is
inherent in the value-level embedding). -/
theorem frac_ops_spec :
    ∀ a b : Frac, a.Canonical → b.Canonical →
      (∃ c, Frac.add a b = .ok c ∧ c.Canonical) ∧
      (∃ c, Frac.sub a b = .ok c ∧ c.Canonical) ∧
      (∃ c, Frac.mul a b = .ok c ∧ c.Canonical) ∧
      (b.num = 0 → Frac.div a b = .error .zeroDenominator) ∧
      (b.num ≠ 0 → ∃ c, Frac.div a b = .ok c ∧ c.Canonical) := by
  intro a b ha hb
  have had : a.den ≠ 0 := ne_of_gt ha.1
  have hbd : b.den ≠ 0 := ne_of_gt hb.1
  refine ⟨?_, ?_, ?_, ?_, ?_⟩
  · exact makeFrac_ok _ _ (mul_ne_zero had hbd)
  · exact makeFrac_ok _ _ (mul_ne_zero had hbd)
  · exact makeFrac_ok _ _ (mul_ne_zero had hbd)
  · intro hz
    show makeFrac (a.num * b.den) (a.den * b.num) = _
    rw [hz, mul_zero]
    exact makeFrac_zero_den _
  · intro hz
    exact makeFrac_ok _ _ (mul_ne_zero had hz)

theorem frac_ops_spec_witness :
    (∃ c, Frac.add ⟨1, 2⟩ ⟨1, 3⟩ = .ok c ∧ c.Canonical) ∧
    (∃ c, Frac.sub ⟨1, 2⟩ ⟨1, 3⟩ = .ok c ∧ c.Canonical) ∧
    (∃ c, Frac.mul ⟨1, 2⟩ ⟨1, 3⟩ = .ok c ∧ c.Canonical) ∧
    (∃ c, Frac.div ⟨1, 2⟩ ⟨1, 3⟩ = .ok c ∧ c.Canonical) ∧
    Frac.div ⟨1, 2⟩ ⟨0, 1⟩ = .error .zeroDenominator := by
  obtain ⟨h1, h2, h3, _, h5⟩ := frac_ops_spec ⟨1, 2⟩ ⟨1, 3⟩ (by decide) (by decide)
  exact ⟨h1, h2, h3, h5 (by decide),
    (frac_ops_spec ⟨1, 2⟩ ⟨0, 1⟩ (by decide) (by decide)).2.2.2.1 rfl⟩

/-- Claim C8 (counterexample): the decoder `parseInBase` of `src/index2.js`
performs no base validation at all; decoding `"z"` in the unsupported base
37 succeeds and returns 35 instead of failing with `UnsupportedBase`. -/
theorem parseInBase_no_base_check : parseInBase "z" 37 = .ok 35 := by decide

/-- Claim C8 (amended): only the `parseInput` path of `src/index.js`
validates the base; it throws `UnsupportedBase` for every JS number that is
not an integer in `[2, 36]`, independently of the digit string (the check
precedes any decoding). -/
theorem validateBase_rejects :
    ∀ b : ℚ, ¬(b.den = 1 ∧ 2 ≤ b ∧ b ≤ 36) → validateBase b = .error .unsupportedBase := by
  intro b hb
  have hcond : ¬b.den = 1 ∨ b < 2 ∨ 36 < b := by
    by_contra hcon
    push_neg at hcon
    exact hb ⟨hcon.1, hcon.2.1, hcon.2.2⟩
  unfold validateBase
  rw [if_pos hcond]

theorem validateBase_rejects_witness :
    validateBase 37 = .error .unsupportedBase :=
  validateBase_rejects 37 (by norm_num)

/-! #### Claim C6: the system builder -/

theorem getD_map_range {α : Type _} (f : ℕ → α) (k i : ℕ) (hi : i < k) (d : α) :
    ((List.range k).map f).getD i d = f i := by
  rw [List.getD_eq_getElem?_getD, List.getElem?_map, List.getElem?_range hi]
  rfl

theorem powRow_length (xi : ℚ) : ∀ (m : ℕ) (p : ℚ), (powRow xi m p).length = m := by
  intro m
  induction m with
  | zero => intro p; rfl
  | succ m ih =>
    intro p
    show (powRow xi (m + 1) p).length = m + 1
    simp only [powRow, List.length_cons, ih]

theorem powRow_getD (xi : ℚ) : ∀ (m j : ℕ) (p : ℚ), j < m →
    (powRow xi m p).getD j 0 = p * xi ^ j := by
  intro m
  induction m with
  | zero => intro j p hj; omega
  | succ m ih =>
    intro j p hj
    cases j with
    | zero => simp [powRow]
    | succ j =>
      show (powRow xi m (p * xi)).getD j 0 = p * xi ^ (j + 1)
      rw [ih j (p * xi) (by omega)]
      ring

/-- Claim C6: for `k` points and `degree = k - 1`, `buildSystem` returns a
`k × k` matrix whose row `i` is the Vandermonde row
`[1, xᵢ, xᵢ², …, xᵢ^(k-1)]` (entry `j` is `xᵢ ^ j`, so column 0 is the
constant term's column) and a length-`k` vector with `b[i] = yᵢ`. -/
theorem buildSystem_spec :
    ∀ (points : List (ℚ × ℚ)) (degree : ℕ), points.length = degree + 1 →
      (buildSystem points degree).1.length = degree + 1 ∧
      (buildSystem points degree).2.length = degree + 1 ∧
      (∀ i, i < degree + 1 → ((buildSystem points degree).1.getD i []).length = degree + 1) ∧
      (∀ i j, i < degree + 1 → j < degree + 1 →
        ((buildSystem points degree).1.getD i []).getD j 0 = (points.getD i (0, 0)).1 ^ j) ∧
      (∀ i, i < degree + 1 → (buildSystem points degree).2.getD i 0 = (points.getD i (0, 0)).2) := by
  intro points degree _
  refine ⟨?_, ?_, ?_, ?_, ?_⟩
  · simp [buildSystem]
  · simp [buildSystem]
  · intro i hi
    show (((List.range (degree + 1)).map fun i =>
      powRow (points.getD i (0, 0)).1 (degree + 1) 1).getD i []).length = degree + 1
    rw [getD_map_range _ _ _ hi, powRow_length]
  · intro i j hi hj
    show (((List.range (degree + 1)).map fun i =>
      powRow (points.getD i (0, 0)).1 (degree + 1) 1).getD i []).getD j 0 = _
    rw [getD_map_range _ _ _ hi, powRow_getD _ _ _ _ hj, one_mul]
  · intro i hi
    show ((List.range (degree + 1)).map fun i => (points.getD i (0, 0)).2).getD i 0 = _
    rw [getD_map_range _ _ _ hi]

theorem buildSystem_spec_witness :
    ((buildSystem [(1, 1), (2, 7)] 1).1.getD 1 []).getD 1 0 = 2 ∧
    (buildSystem [(1, 1), (2, 7)] 1).2.getD 1 0 = 7 := by
  have h := buildSystem_spec [(1, 1), (2, 7)] 1 rfl
  constructor
  · have h2 := h.2.2.2.1 1 1 (by omega) (by omega)
    rw [h2]
    norm_num
  · have h2 := h.2.2.2.2 1 (by omega)
    rw [h2]
    norm_num

/-- Claim C10: decoding the empty string succeeds with result `0` in every
base (the `for (const ch of s)` loop body never runs and the initial
accumulator `0n` is returned). -/
theorem parseInBase_empty : ∀ base : ℤ, parseInBase "" base = .ok 0 :=
  fun _ => rfl

/-! #### Simulation of `solve` by `solveQ` on canonical inputs -/

theorem swapIdx_self {α : Type _} (v : ℕ → α) (i : ℕ) : swapIdx v i i = v := by
  funext r
  unfold swapIdx
  split_ifs with h
  · rw [h]
  · rfl

theorem swapIdx_liftM (M : MatQ) (i j : ℕ) :
    swapIdx (liftM M) i j = liftM (swapIdx M i j) := by
  funext r c
  simp only [swapIdx, liftM]
  split_ifs <;> rfl

theorem swapIdx_liftV (v : VecQ) (i j : ℕ) :
    swapIdx (liftV v) i j = liftV (swapIdx v i j) := by
  funext r
  simp only [swapIdx, liftV]
  split_ifs <;> rfl

theorem update_liftF (g : ℕ → ℚ) (c : ℕ) (v : ℚ) :
    Function.update (fun t => liftF (g t)) c (liftF v) =
      fun t => liftF (Function.update g c v t) := by
  funext t
  by_cases h : t = c
  · subst h
    simp [Function.update]
  · simp [Function.update, h]

theorem update_liftM (M : MatQ) (r : ℕ) (w : ℕ → ℚ) :
    Function.update (liftM M) r (fun c => liftF (w c)) =
      liftM (Function.update M r w) := by
  funext t c
  by_cases h : t = r
  · subst h
    simp [Function.update, liftM]
  · simp [Function.update, h, liftM]

theorem update_liftV (v : VecQ) (i : ℕ) (x : ℚ) :
    Function.update (liftV v) i (liftF x) = liftV (Function.update v i x) := by
  funext t
  by_cases h : t = i
  · subst h
    simp [Function.update, liftV]
  · simp [Function.update, h, liftV]

theorem liftF_num_bne (q : ℚ) : ((liftF q).num != 0) = (q != 0) := by
  show (q.num != 0) = (q != 0)
  by_cases h : q = 0
  · subst h
    rfl
  · have hn : q.num ≠ 0 := Rat.num_ne_zero.mpr h
    simp [bne, h, hn]

theorem liftF_zero : liftF 0 = ⟨0, 1⟩ := rfl

theorem makeFrac_zero_one : makeFrac 0 1 = .ok (liftF 0) := rfl

theorem findPivot_liftM (M : MatQ) (col n : ℕ) :
    findPivot (liftM M) col n = pivotQ M col n := by
  unfold findPivot pivotQ
  have h : (fun r => ((liftM M) r col).num != 0) = fun r => M r col != 0 := by
    funext r
    exact liftF_num_bne (M r col)
  rw [h]

theorem liftF_inj {p q : ℚ} (h : liftF p = liftF q) : p = q := by
  have hnum : p.num = q.num := congrArg Frac.num h
  have hden : ((p.den : ℤ)) = (q.den : ℤ) := congrArg Frac.den h
  have hden2 : p.den = q.den := by exact_mod_cast hden
  rw [← Rat.num_div_den p, ← Rat.num_div_den q, hnum, hden2]

theorem elimEntriesF_sim : ∀ (cnt c : ℕ) (fq : ℚ) (pq rq : ℕ → ℚ),
    elimEntriesF (liftF fq) (fun t => liftF (pq t)) c cnt (fun t => liftF (rq t)) =
      .ok (fun t => liftF (if c ≤ t ∧ t < c + cnt then rq t - fq * pq t else rq t)) := by
  intro cnt
  induction cnt with
  | zero =>
    intro c fq pq rq
    show Except.ok _ = _
    congr 1
    funext t
    have : ¬(c ≤ t ∧ t < c + 0) := by omega
    rw [if_neg this]
  | succ cnt ih =>
    intro c fq pq rq
    show (Frac.mul (liftF fq) (liftF (pq c)) >>= fun m =>
      Frac.sub (liftF (rq c)) m >>= fun v =>
      elimEntriesF (liftF fq) (fun t => liftF (pq t)) (c + 1) cnt
        (Function.update (fun t => liftF (rq t)) c v)) = _
    rw [frac_mul_lift]
    show (Frac.sub (liftF (rq c)) (liftF (fq * pq c)) >>= fun v =>
      elimEntriesF (liftF fq) (fun t => liftF (pq t)) (c + 1) cnt
        (Function.update (fun t => liftF (rq t)) c v)) = _
    rw [frac_sub_lift]
    show elimEntriesF (liftF fq) (fun t => liftF (pq t)) (c + 1) cnt
      (Function.update (fun t => liftF (rq t)) c (liftF (rq c - fq * pq c))) = _
    rw [update_liftF, ih (c + 1) fq pq (Function.update rq c (rq c - fq * pq c))]
    congr 1
    funext t
    by_cases ht : t = c
    · subst ht
      have h1 : ¬(t + 1 ≤ t ∧ t < t + 1 + cnt) := by omega
      have h2 : t ≤ t ∧ t < t + (cnt + 1) := by omega
      rw [if_neg h1, if_pos h2, Function.update_same]
    · have h3 : Function.update rq c (rq c - fq * pq c) t = rq t :=
        Function.update_noteq ht _ _
      by_cases ht2 : c ≤ t ∧ t < c + (cnt + 1)
      · have h4 : c + 1 ≤ t ∧ t < c + 1 + cnt := by omega
        rw [if_pos h4, if_pos ht2, h3]
      · have h4 : ¬(c + 1 ≤ t ∧ t < c + 1 + cnt) := by omega
        rw [if_neg h4, if_neg ht2, h3]

theorem liftF_num_beq_true {q : ℚ} (h : q = 0) : ((liftF q).num == 0) = true := by
  subst h
  rfl

theorem liftF_num_beq_false {q : ℚ} (h : q ≠ 0) : ((liftF q).num == 0) = false := by
  have hn : q.num ≠ 0 := Rat.num_ne_zero.mpr h
  show (q.num == 0) = false
  simpa using hn

theorem pElim_zero (M : MatQ) (col n r : ℕ) : pElim M col n r 0 = M := by
  funext t c
  unfold pElim
  rw [if_neg (by omega)]

theorem pElimV_zero (M : MatQ) (b : VecQ) (col r : ℕ) : pElimV M b col r 0 = b := by
  funext t
  unfold pElimV
  rw [if_neg (by omega)]

theorem pElim_skip (M : MatQ) (col n r cnt : ℕ) (hz : M r col = 0) :
    pElim M col n (r + 1) cnt = pElim M col n r (cnt + 1) := by
  funext t c
  unfold pElim
  by_cases ht : t = r
  · subst ht
    rw [if_neg (by omega), if_neg (by tauto)]
  · by_cases h1 : r + 1 ≤ t ∧ t < r + 1 + cnt ∧ M t col ≠ 0 ∧ col ≤ c ∧ c < n
    · rw [if_pos h1, if_pos ⟨by omega, by omega, h1.2.2⟩]
    · rw [if_neg h1, if_neg (by intro h2; exact h1 ⟨by omega, by omega, h2.2.2⟩)]

theorem pElimV_skip (M : MatQ) (b : VecQ) (col r cnt : ℕ) (hz : M r col = 0) :
    pElimV M b col (r + 1) cnt = pElimV M b col r (cnt + 1) := by
  funext t
  unfold pElimV
  by_cases ht : t = r
  · subst ht
    rw [if_neg (by omega), if_neg (by tauto)]
  · by_cases h1 : r + 1 ≤ t ∧ t < r + 1 + cnt ∧ M t col ≠ 0
    · rw [if_pos h1, if_pos ⟨by omega, by omega, h1.2.2⟩]
    · rw [if_neg h1, if_neg (by intro h2; exact h1 ⟨by omega, by omega, h2.2.2⟩)]

theorem pElim_step (M : MatQ) (col n r cnt : ℕ) (hz : M r col ≠ 0) (hcr : col < r) :
    pElim (Function.update M r
        (fun c => if col ≤ c ∧ c < col + (n - col) then
          M r c - M r col / M col col * M col c else M r c))
      col n (r + 1) cnt = pElim M col n r (cnt + 1) := by
  funext t c
  unfold pElim
  by_cases ht : t = r
  · subst ht
    rw [if_neg (by omega)]
    rw [Function.update_same]
    by_cases hc : col ≤ c ∧ c < n
    · rw [if_pos (by omega), if_pos ⟨by omega, by omega, hz, hc.1, hc.2⟩]
    · rw [if_neg (by omega), if_neg (by tauto)]
  · have hM : ∀ c', Function.update M r
        (fun c => if col ≤ c ∧ c < col + (n - col) then
          M r c - M r col / M col col * M col c else M r c) t c' = M t c' := by
      intro c'
      rw [Function.update_noteq ht]
    have hMcol : ∀ c', Function.update M r
        (fun c => if col ≤ c ∧ c < col + (n - col) then
          M r c - M r col / M col col * M col c else M r c) col c' = M col c' := by
      intro c'
      rw [Function.update_noteq (by omega)]
    rw [hM, hM, hMcol, hMcol]
    by_cases h1 : r + 1 ≤ t ∧ t < r + 1 + cnt ∧ M t col ≠ 0 ∧ col ≤ c ∧ c < n
    · rw [if_pos h1, if_pos ⟨by omega, by omega, h1.2.2⟩]
    · rw [if_neg h1, if_neg (by intro h2; exact h1 ⟨by omega, by omega, h2.2.2⟩)]

theorem pElimV_step (M : MatQ) (b : VecQ) (col n r cnt : ℕ)
    (hz : M r col ≠ 0) (hcr : col < r) :
    pElimV (Function.update M r
        (fun c => if col ≤ c ∧ c < col + (n - col) then
          M r c - M r col / M col col * M col c else M r c))
      (Function.update b r (b r - M r col / M col col * b col))
      col (r + 1) cnt = pElimV M b col r (cnt + 1) := by
  funext t
  unfold pElimV
  by_cases ht : t = r
  · subst ht
    rw [if_neg (by omega), if_pos ⟨by omega, by omega, hz⟩, Function.update_same]
  · have hM : ∀ c', Function.update M r
        (fun c => if col ≤ c ∧ c < col + (n - col) then
          M r c - M r col / M col col * M col c else M r c) t c' = M t c' := by
      intro c'
      rw [Function.update_noteq ht]
    have hMcol : ∀ c', Function.update M r
        (fun c => if col ≤ c ∧ c < col + (n - col) then
          M r c - M r col / M col col * M col c else M r c) col c' = M col c' := by
      intro c'
      rw [Function.update_noteq (by omega)]
    have hb : Function.update b r (b r - M r col / M col col * b col) t = b t :=
      Function.update_noteq ht _ _
    have hbcol : Function.update b r (b r - M r col / M col col * b col) col = b col :=
      Function.update_noteq (by omega) _ _
    rw [hM, hMcol, hb, hbcol]
    by_cases h1 : r + 1 ≤ t ∧ t < r + 1 + cnt ∧ M t col ≠ 0
    · rw [if_pos h1, if_pos ⟨by omega, by omega, h1.2.2⟩]
    · rw [if_neg h1, if_neg (by intro h2; exact h1 ⟨by omega, by omega, h2.2.2⟩)]

theorem elimRowsF_sim : ∀ (cnt r : ℕ) (M : MatQ) (b : VecQ) (col n : ℕ),
    col < r →
    (M col col = 0 → ∀ t, r ≤ t → t < r + cnt → M t col = 0) →
    elimRowsF col n r cnt (liftM M) (liftV b) =
      .ok (liftM (pElim M col n r cnt), liftV (pElimV M b col r cnt)) := by
  intro cnt
  induction cnt with
  | zero =>
    intro r M b col n _ _
    show Except.ok _ = _
    rw [pElim_zero, pElimV_zero]
  | succ cnt ih =>
    intro r M b col n hcr hpiv
    show (if ((liftM M r col).num == 0) = true then _ else _) = _
    by_cases hz : M r col = 0
    · have hcond : ((liftM M r col).num == 0) = true := liftF_num_beq_true hz
      rw [if_pos hcond]
      rw [ih (r + 1) M b col n (by omega)
        (fun h0 t ht1 ht2 => hpiv h0 t (by omega) (by omega))]
      rw [pElim_skip M col n r cnt hz, pElimV_skip M b col r cnt hz]
    · have hcond : ((liftM M r col).num == 0) = false := liftF_num_beq_false hz
      rw [if_neg (ne_true_of_eq_false hcond)]
      have hpc : M col col ≠ 0 := by
        intro h0
        exact hz (hpiv h0 r (by omega) (by omega))
      show (Frac.div (liftF (M r col)) (liftF (M col col)) >>= fun factor =>
        elimEntriesF factor (liftM M col) col (n - col) (liftM M r) >>= fun newRow =>
        Frac.mul factor (liftV b col) >>= fun m =>
        Frac.sub (liftV b r) m >>= fun newRhs =>
        elimRowsF col n (r + 1) cnt (Function.update (liftM M) r newRow)
          (Function.update (liftV b) r newRhs)) = _
      rw [frac_div_lift _ _ hpc]
      show (elimEntriesF (liftF (M r col / M col col)) (liftM M col) col (n - col)
          (liftM M r) >>= fun newRow =>
        Frac.mul (liftF (M r col / M col col)) (liftV b col) >>= fun m =>
        Frac.sub (liftV b r) m >>= fun newRhs =>
        elimRowsF col n (r + 1) cnt (Function.update (liftM M) r newRow)
          (Function.update (liftV b) r newRhs)) = _
      rw [show liftM M col = fun t => liftF (M col t) from rfl,
        show liftM M r = fun t => liftF (M r t) from rfl,
        elimEntriesF_sim (n - col) col (M r col / M col col) (M col) (M r)]
      show (Frac.mul (liftF (M r col / M col col)) (liftV b col) >>= fun m =>
        Frac.sub (liftV b r) m >>= fun newRhs =>
        elimRowsF col n (r + 1) cnt
          (Function.update (liftM M) r (fun t => liftF
            (if col ≤ t ∧ t < col + (n - col) then
              M r t - M r col / M col col * M col t else M r t)))
          (Function.update (liftV b) r newRhs)) = _
      rw [show liftV b col = liftF (b col) from rfl, frac_mul_lift]
      show (Frac.sub (liftV b r) (liftF (M r col / M col col * b col)) >>= fun newRhs =>
        elimRowsF col n (r + 1) cnt
          (Function.update (liftM M) r (fun t => liftF
            (if col ≤ t ∧ t < col + (n - col) then
              M r t - M r col / M col col * M col t else M r t)))
          (Function.update (liftV b) r newRhs)) = _
      rw [show liftV b r = liftF (b r) from rfl, frac_sub_lift]
      show elimRowsF col n (r + 1) cnt
          (Function.update (liftM M) r (fun t => liftF
            (if col ≤ t ∧ t < col + (n - col) then
              M r t - M r col / M col col * M col t else M r t)))
          (Function.update (liftV b) r (liftF (b r - M r col / M col col * b col))) = _
      rw [update_liftM, update_liftV]
      set M2 := Function.update M r
        (fun c => if col ≤ c ∧ c < col + (n - col) then
          M r c - M r col / M col col * M col c else M r c) with hM2
      set b2 := Function.update b r (b r - M r col / M col col * b col) with hb2
      have hM2col : ∀ c', M2 col c' = M col c' := by
        intro c'
        rw [hM2, Function.update_noteq (by omega)]
      rw [ih (r + 1) M2 b2 col n (by omega) (fun h0 t ht1 ht2 => by
        rw [hM2, Function.update_noteq (by omega)]
        exact hpiv (by rw [← hM2col col]; exact h0) t (by omega) (by omega))]
      rw [hM2, hb2, pElim_step M col n r cnt hz hcr, pElimV_step M b col n r cnt hz hcr]

theorem pivotQ_le (M : MatQ) (col n : ℕ) : col ≤ pivotQ M col n := by
  unfold pivotQ
  cases hf : (List.range' col (n - col)).find? fun r => M r col != 0 with
  | none => exact le_refl col
  | some p =>
    have hmem := List.mem_of_find?_eq_some hf
    exact (List.mem_range'_1.mp hmem).1

theorem pivotQ_lt (M : MatQ) (col n : ℕ) (h : col < n) : pivotQ M col n < n := by
  unfold pivotQ
  cases hf : (List.range' col (n - col)).find? fun r => M r col != 0 with
  | none => exact h
  | some p =>
    have hmem := List.mem_of_find?_eq_some hf
    have h2 := (List.mem_range'_1.mp hmem).2
    show p < n
    omega

theorem pivot_swap_zero (M : MatQ) (col n : ℕ) (hcol : col < n)
    (h0 : swapIdx M col (pivotQ M col n) col col = 0) :
    ∀ t, col ≤ t → t < n → swapIdx M col (pivotQ M col n) t col = 0 := by
  have hall : ∀ r, col ≤ r → r < n → M r col = 0 := by
    cases hf : (List.range' col (n - col)).find? fun r => M r col != 0 with
    | none =>
      intro r hr1 hr2
      have := List.find?_eq_none.mp hf r (List.mem_range'_1.mpr ⟨hr1, by omega⟩)
      simpa using this
    | some p =>
      exfalso
      have hpv : M p col ≠ 0 := by simpa using List.find?_some hf
      have hpiv : pivotQ M col n = p := by
        unfold pivotQ
        rw [hf]
        rfl
      have hswap : swapIdx M col (pivotQ M col n) col col = M p col := by
        rw [hpiv]
        unfold swapIdx
        rw [if_pos rfl]
      exact hpv (hswap ▸ h0)
  intro t ht1 ht2
  unfold swapIdx
  split_ifs with e1 e2
  · exact hall _ (pivotQ_le M col n) (pivotQ_lt M col n hcol)
  · exact hall col le_rfl hcol
  · exact hall t ht1 ht2

theorem pElim_eq_elimStepQ (M : MatQ) (col n : ℕ) (hcol : col < n) :
    pElim M col n (col + 1) (n - (col + 1)) = elimStepQ n col M := by
  funext t c
  unfold pElim elimStepQ
  by_cases h1 : col + 1 ≤ t ∧ t < col + 1 + (n - (col + 1)) ∧ M t col ≠ 0 ∧ col ≤ c ∧ c < n
  · rw [if_pos h1, if_pos ⟨by omega, by omega, h1.2.2⟩]
  · rw [if_neg h1, if_neg (fun h2 => h1 ⟨by omega, by omega, h2.2.2⟩)]

theorem pElimV_eq_elimVecQ (M : MatQ) (b : VecQ) (col n : ℕ) (hcol : col < n) :
    pElimV M b col (col + 1) (n - (col + 1)) = elimVecQ n col M b := by
  funext t
  unfold pElimV elimVecQ
  by_cases h1 : col + 1 ≤ t ∧ t < col + 1 + (n - (col + 1)) ∧ M t col ≠ 0
  · rw [if_pos h1, if_pos ⟨by omega, by omega, h1.2.2⟩]
  · rw [if_neg h1, if_neg (fun h2 => h1 ⟨by omega, by omega, h2.2.2⟩)]

theorem forwardF_sim : ∀ (cnt col : ℕ) (M : MatQ) (b : VecQ) (n : ℕ), col + cnt = n →
    forwardF n col cnt (liftM M) (liftV b) =
      .ok (liftM (forwardQ n col cnt M b).1, liftV (forwardQ n col cnt M b).2) := by
  intro cnt
  induction cnt with
  | zero => intro col M b n _; rfl
  | succ cnt ih =>
    intro col M b n hn
    have hcol : col < n := by omega
    have hM1 : (if findPivot (liftM M) col n ≠ col then
        swapIdx (liftM M) col (findPivot (liftM M) col n) else liftM M) =
        liftM (swapIdx M col (pivotQ M col n)) := by
      rw [findPivot_liftM]
      by_cases hp : pivotQ M col n = col
      · rw [if_neg (by simp [hp]), hp, swapIdx_self]
      · rw [if_pos hp, swapIdx_liftM]
    have hb1 : (if findPivot (liftM M) col n ≠ col then
        swapIdx (liftV b) col (findPivot (liftM M) col n) else liftV b) =
        liftV (swapIdx b col (pivotQ M col n)) := by
      rw [findPivot_liftM]
      by_cases hp : pivotQ M col n = col
      · rw [if_neg (by simp [hp]), hp, swapIdx_self]
      · rw [if_pos hp, swapIdx_liftV]
    show (match elimRowsF col n (col + 1) (n - (col + 1))
        (if findPivot (liftM M) col n ≠ col then
          swapIdx (liftM M) col (findPivot (liftM M) col n) else liftM M)
        (if findPivot (liftM M) col n ≠ col then
          swapIdx (liftV b) col (findPivot (liftM M) col n) else liftV b) with
      | Except.error e => (Except.error e : Except Err (MatF × VecF))
      | Except.ok (M2, rhs2) => forwardF n (col + 1) cnt M2 rhs2) = _
    rw [hM1, hb1]
    rw [elimRowsF_sim (n - (col + 1)) (col + 1) (swapIdx M col (pivotQ M col n))
      (swapIdx b col (pivotQ M col n)) col n (by omega)
      (fun h0 t ht1 ht2 => pivot_swap_zero M col n hcol h0 t (by omega) (by omega))]
    show forwardF n (col + 1) cnt
      (liftM (pElim (swapIdx M col (pivotQ M col n)) col n (col + 1) (n - (col + 1))))
      (liftV (pElimV (swapIdx M col (pivotQ M col n)) (swapIdx b col (pivotQ M col n))
        col (col + 1) (n - (col + 1)))) = _
    rw [pElim_eq_elimStepQ _ col n hcol, pElimV_eq_elimVecQ _ _ col n hcol,
      ih (col + 1) _ _ n (by omega)]
    rfl

theorem sumLoopF_sim : ∀ (cnt j : ℕ) (M : MatQ) (x : ℕ → ℚ) (i : ℕ) (s : ℚ),
    sumLoopF (liftM M) (fun t => liftF (x t)) i j cnt (liftF s) =
      .ok (liftF (dotSeg M x i j cnt s)) := by
  intro cnt
  induction cnt with
  | zero => intro j M x i s; rfl
  | succ cnt ih =>
    intro j M x i s
    show (Frac.mul (liftF (M i j)) (liftF (x j)) >>= fun m =>
      Frac.add (liftF s) m >>= fun s1 =>
      sumLoopF (liftM M) (fun t => liftF (x t)) i (j + 1) cnt s1) = _
    rw [frac_mul_lift]
    show (Frac.add (liftF s) (liftF (M i j * x j)) >>= fun s1 =>
      sumLoopF (liftM M) (fun t => liftF (x t)) i (j + 1) cnt s1) = _
    rw [frac_add_lift]
    show sumLoopF (liftM M) (fun t => liftF (x t)) i (j + 1) cnt
      (liftF (s + M i j * x j)) = _
    rw [ih]
    rfl

theorem backLoopF_sim : ∀ (i : ℕ) (M : MatQ) (b : VecQ) (n : ℕ) (x : ℕ → ℚ),
    backLoopF (liftM M) (liftV b) n i (fun t => liftF (x t)) =
      (backQ M b n i x).map (fun xf => fun t => liftF (xf t)) := by
  intro i
  induction i with
  | zero => intro M b n x; rfl
  | succ i ih =>
    intro M b n x
    show (makeFrac 0 1 >>= fun z =>
      sumLoopF (liftM M) (fun t => liftF (x t)) i (i + 1) (n - (i + 1)) z >>= fun s =>
      Frac.sub (liftF (b i)) s >>= fun d =>
      Frac.div d (liftF (M i i)) >>= fun xi =>
      backLoopF (liftM M) (liftV b) n i
        (Function.update (fun t => liftF (x t)) i xi)) = _
    rw [makeFrac_zero_one]
    show (sumLoopF (liftM M) (fun t => liftF (x t)) i (i + 1) (n - (i + 1)) (liftF 0) >>=
      fun s => Frac.sub (liftF (b i)) s >>= fun d =>
      Frac.div d (liftF (M i i)) >>= fun xi =>
      backLoopF (liftM M) (liftV b) n i
        (Function.update (fun t => liftF (x t)) i xi)) = _
    rw [sumLoopF_sim]
    show (Frac.sub (liftF (b i)) (liftF (dotSeg M x i (i + 1) (n - (i + 1)) 0)) >>=
      fun d => Frac.div d (liftF (M i i)) >>= fun xi =>
      backLoopF (liftM M) (liftV b) n i
        (Function.update (fun t => liftF (x t)) i xi)) = _
    rw [frac_sub_lift]
    show (Frac.div (liftF (b i - dotSeg M x i (i + 1) (n - (i + 1)) 0)) (liftF (M i i)) >>=
      fun xi => backLoopF (liftM M) (liftV b) n i
        (Function.update (fun t => liftF (x t)) i xi)) = _
    by_cases hM : M i i = 0
    · rw [hM, frac_div_lift_zero]
      have hR : backQ M b n (i + 1) x = .error .zeroDenominator := by
        show (if M i i = 0 then _ else _) = _
        rw [if_pos hM]
      rw [hR]
      rfl
    · rw [frac_div_lift _ _ hM]
      show backLoopF (liftM M) (liftV b) n i
        (Function.update (fun t => liftF (x t)) i
          (liftF ((b i - dotSeg M x i (i + 1) (n - (i + 1)) 0) / M i i))) = _
      rw [update_liftF, ih]
      have hR : backQ M b n (i + 1) x = backQ M b n i
          (Function.update x i ((b i - dotSeg M x i (i + 1) (n - (i + 1)) 0) / M i i)) := by
        show (if M i i = 0 then _ else _) = _
        rw [if_neg hM]
      rw [hR]

/-- Simulation: on canonical inputs, `solve` computes exactly what the
`ℚ`-level mirror computes, entrywise abstracted, with identical errors. -/
theorem solve_eq_solveQ (n : ℕ) (M : MatQ) (b : VecQ) :
    solve n (liftM M) (liftV b) = (solveQ n M b).map (List.map liftF) := by
  show (forwardF n 0 n (liftM M) (liftV b) >>= fun p =>
    makeFrac 0 1 >>= fun z =>
    backLoopF p.1 p.2 n n (fun _ => z) >>= fun x =>
    pure ((List.range n).map x)) = _
  rw [forwardF_sim n 0 M b n (Nat.zero_add n)]
  show (makeFrac 0 1 >>= fun z =>
    backLoopF (liftM (forwardQ n 0 n M b).1) (liftV (forwardQ n 0 n M b).2) n n
      (fun _ => z) >>= fun x =>
    pure ((List.range n).map x)) = _
  rw [makeFrac_zero_one]
  show (backLoopF (liftM (forwardQ n 0 n M b).1) (liftV (forwardQ n 0 n M b).2) n n
      (fun t => liftF ((fun _ => (0 : ℚ)) t)) >>= fun x =>
    pure ((List.range n).map x)) = _
  rw [backLoopF_sim]
  cases hbq : backQ (forwardQ n 0 n M b).1 (forwardQ n 0 n M b).2 n n (fun _ => 0) with
  | error e =>
    have hs : solveQ n M b = .error e := by
      show (backQ (forwardQ n 0 n M b).1 (forwardQ n 0 n M b).2 n n (fun _ => 0) >>=
        fun x => pure ((List.range n).map x)) = _
      rw [hbq]
      rfl
    rw [hs]
    rfl
  | ok xf =>
    have hs : solveQ n M b = .ok ((List.range n).map xf) := by
      show (backQ (forwardQ n 0 n M b).1 (forwardQ n 0 n M b).2 n n (fun _ => 0) >>=
        fun x => pure ((List.range n).map x)) = _
      rw [hbq]
      rfl
    rw [hs]
    show Except.ok ((List.range n).map fun t => liftF (xf t)) = .ok (List.map liftF ((List.range n).map xf))
    rw [List.map_map]
    rfl

/-! #### The exact solver on a matrix with two identical rows -/

theorem swapIdx_transp {α : Type _} (v : ℕ → α) (i j r : ℕ) :
    swapIdx v i j (if r = i then j else if r = j then i else r) = v r := by
  unfold swapIdx
  split_ifs <;> first | rfl | (congr 1; omega)

theorem swapIdx_fst {α : Type _} (v : ℕ → α) (i j : ℕ) : swapIdx v i j i = v j := by
  unfold swapIdx
  rw [if_pos rfl]

theorem swapIdx_snd {α : Type _} (v : ℕ → α) (i j : ℕ) (h : j ≠ i) :
    swapIdx v i j j = v i := by
  unfold swapIdx
  rw [if_neg h, if_pos rfl]

theorem swapIdx_of_ne {α : Type _} (v : ℕ → α) (i j r : ℕ) (h1 : r ≠ i) (h2 : r ≠ j) :
    swapIdx v i j r = v r := by
  unfold swapIdx
  rw [if_neg h1, if_neg h2]

theorem elimStepQ_of_ne (n col : ℕ) (M : MatQ) (r c : ℕ)
    (h : ¬(col < r ∧ r < n ∧ M r col ≠ 0 ∧ col ≤ c ∧ c < n)) :
    elimStepQ n col M r c = M r c := if_neg h

theorem elimStepQ_of_pos (n col : ℕ) (M : MatQ) (r c : ℕ)
    (h : col < r ∧ r < n ∧ M r col ≠ 0 ∧ col ≤ c ∧ c < n) :
    elimStepQ n col M r c = M r c - M r col / M col col * M col c := if_pos h

theorem elimInv_step (n col : ℕ) (hcol : col < n) (M : MatQ) (hinv : ElimInv n col M) :
    ElimInv n (col + 1) (elimStepQ n col (swapIdx M col (pivotQ M col n))) := by
  have hple := pivotQ_le M col n
  have hplt := pivotQ_lt M col n hcol
  set P := pivotQ M col n with hP
  set M1 := swapIdx M col P with hM1
  have hMc : M1 col col = M P col := congrFun (swapIdx_fst M col P) col
  rcases hinv with ⟨c, hc, hcc⟩ | ⟨p, q, hcp, hcq, hpq, hpn, hqn, heq⟩ | ⟨zp, hzp1, hzpn, hz⟩
  · left
    refine ⟨c, by omega, ?_⟩
    rw [elimStepQ_of_ne _ _ _ _ _ (fun h => absurd h.1 (by omega))]
    rw [hM1, congrFun (swapIdx_of_ne M col P c (by omega) (by omega)) c]
    exact hcc
  · by_cases hpz : M1 col col = 0
    · left
      exact ⟨col, by omega,
        by rw [elimStepQ_of_ne _ _ _ _ _ (fun h => absurd h.1 (by omega))]; exact hpz⟩
    · set p1 := if p = col then P else if p = P then col else p with hp1def
      set q1 := if q = col then P else if q = P then col else q with hq1def
      have hrowp : M1 p1 = M p := swapIdx_transp M col P p
      have hrowq : M1 q1 = M q := swapIdx_transp M col P q
      have hp1r : col ≤ p1 ∧ p1 < n := by rw [hp1def]; split_ifs <;> omega
      have hq1r : col ≤ q1 ∧ q1 < n := by rw [hq1def]; split_ifs <;> omega
      have hp1q1 : p1 ≠ q1 := by rw [hp1def, hq1def]; split_ifs <;> omega
      have h1eq : ∀ c, col ≤ c → c < n → M1 p1 c = M1 q1 c := by
        intro c h1 h2
        rw [congrFun hrowp c, congrFun hrowq c]
        exact heq c h1 h2
      by_cases hc1 : p1 = col
      · right; right
        have hq1nz : M1 q1 col = M1 col col := by
          have h := h1eq col le_rfl hcol
          rw [hc1] at h
          exact h.symm
        refine ⟨q1, by omega, hq1r.2, ?_⟩
        intro c hcc1 hcc2
        rw [elimStepQ_of_pos _ _ _ _ _
          ⟨by omega, hq1r.2, by rw [hq1nz]; exact hpz, by omega, hcc2⟩]
        rw [hq1nz, div_self hpz, one_mul]
        have h := h1eq c (by omega) hcc2
        rw [hc1] at h
        rw [h]
        exact sub_self _
      · by_cases hc2 : q1 = col
        · right; right
          have hp1nz : M1 p1 col = M1 col col := by
            have h := h1eq col le_rfl hcol
            rw [hc2] at h
            exact h
          refine ⟨p1, by omega, hp1r.2, ?_⟩
          intro c hcc1 hcc2
          rw [elimStepQ_of_pos _ _ _ _ _
            ⟨by omega, hp1r.2, by rw [hp1nz]; exact hpz, by omega, hcc2⟩]
          rw [hp1nz, div_self hpz, one_mul]
          have h := h1eq c (by omega) hcc2
          rw [hc2] at h
          rw [h]
          exact sub_self _
        · right; left
          refine ⟨p1, q1, by omega, by omega, hp1q1, hp1r.2, hq1r.2, ?_⟩
          intro c hcc1 hcc2
          by_cases hnz : M1 p1 col = 0
          · have hnzq : M1 q1 col = 0 := by
              rw [← h1eq col le_rfl hcol]
              exact hnz
            rw [elimStepQ_of_ne _ _ _ _ _ (fun h => h.2.2.1 hnz),
              elimStepQ_of_ne _ _ _ _ _ (fun h => h.2.2.1 hnzq)]
            exact h1eq c (by omega) hcc2
          · have hnzq : M1 q1 col ≠ 0 := by
              rw [← h1eq col le_rfl hcol]
              exact hnz
            rw [elimStepQ_of_pos _ _ _ _ _ ⟨by omega, hp1r.2, hnz, by omega, hcc2⟩,
              elimStepQ_of_pos _ _ _ _ _ ⟨by omega, hq1r.2, hnzq, by omega, hcc2⟩]
            rw [h1eq c (by omega) hcc2, h1eq col le_rfl hcol]
  · by_cases hpz : M1 col col = 0
    · left
      exact ⟨col, by omega,
        by rw [elimStepQ_of_ne _ _ _ _ _ (fun h => absurd h.1 (by omega))]; exact hpz⟩
    · right; right
      have hPne : M P col ≠ 0 := by
        rw [← hMc]
        exact hpz
      have hzpP : zp ≠ P := by
        intro h
        apply hPne
        rw [← h]
        exact hz col le_rfl hcol
      by_cases hzc : zp = col
      · subst hzc
        have hPcol : P ≠ zp := by
          intro h
          apply hPne
          rw [h]
          exact hz zp le_rfl hcol
        have hrow : M1 P = M zp := swapIdx_snd M zp P hPcol
        refine ⟨P, by omega, hplt, ?_⟩
        intro c hcc1 hcc2
        rw [elimStepQ_of_ne _ _ _ _ _
          (fun h => h.2.2.1 (by rw [congrFun hrow zp]; exact hz zp le_rfl hcol))]
        rw [congrFun hrow c]
        exact hz c (by omega) hcc2
      · have hrow : M1 zp = M zp := swapIdx_of_ne M col P zp hzc hzpP
        refine ⟨zp, by omega, hzpn, ?_⟩
        intro c hcc1 hcc2
        rw [elimStepQ_of_ne _ _ _ _ _
          (fun h => h.2.2.1 (by rw [congrFun hrow col]; exact hz col le_rfl hcol))]
        rw [congrFun hrow c]
        exact hz c (by omega) hcc2

theorem forwardQ_inv : ∀ (cnt col n : ℕ) (M : MatQ) (b : VecQ), col + cnt = n →
    ElimInv n col M → ElimInv n n (forwardQ n col cnt M b).1 := by
  intro cnt
  induction cnt with
  | zero =>
    intro col n M b hn hinv
    have : col = n := by omega
    subst this
    exact hinv
  | succ cnt ih =>
    intro col n M b hn hinv
    have hcol : col < n := by omega
    show ElimInv n n (forwardQ n (col + 1) cnt
      (elimStepQ n col (swapIdx M col (pivotQ M col n)))
      (elimVecQ n col (swapIdx M col (pivotQ M col n)) (swapIdx b col (pivotQ M col n)))).1
    exact ih (col + 1) n _ _ (by omega) (elimInv_step n col hcol M hinv)

theorem backQ_err : ∀ (m : ℕ) (M : MatQ) (b : VecQ) (n : ℕ) (x : ℕ → ℚ),
    (∃ i, i < m ∧ M i i = 0) → backQ M b n m x = .error .zeroDenominator := by
  intro m
  induction m with
  | zero =>
    intro M b n x ⟨i, hi, _⟩
    omega
  | succ m ih =>
    intro M b n x ⟨i, hi, hz⟩
    show (if M m m = 0 then _ else _) = _
    by_cases hm : M m m = 0
    · rw [if_pos hm]
    · rw [if_neg hm]
      exact ih M b n _ ⟨i, by
        rcases Nat.lt_succ_iff_lt_or_eq.mp hi with h | h
        · exact h
        · exact absurd (h ▸ hz) hm, hz⟩

theorem solveQ_dup (n : ℕ) (M : MatQ) (b : VecQ)
    (h : ∃ p q, p ≠ q ∧ p < n ∧ q < n ∧ ∀ c, c < n → M p c = M q c) :
    solveQ n M b = .error .zeroDenominator := by
  obtain ⟨p, q, hpq, hpn, hqn, heq⟩ := h
  have hinv : ElimInv n n (forwardQ n 0 n M b).1 :=
    forwardQ_inv n 0 n M b (Nat.zero_add n)
      (Or.inr (Or.inl ⟨p, q, Nat.zero_le p, Nat.zero_le q, hpq, hpn, hqn,
        fun c _ hc => heq c hc⟩))
  have hdead : ∃ i, i < n ∧ (forwardQ n 0 n M b).1 i i = 0 := by
    rcases hinv with ⟨c, hc, hcc⟩ | ⟨p1, q1, h1, _, h3, _, h5, _⟩ | ⟨p1, h1, h2, _⟩
    · exact ⟨c, hc, hcc⟩
    · omega
    · omega
  show (backQ (forwardQ n 0 n M b).1 (forwardQ n 0 n M b).2 n n (fun _ => 0) >>=
    fun x => pure ((List.range n).map x)) = _
  rw [backQ_err n _ _ n _ hdead]
  rfl

/-- On canonical (lifted) inputs, the exact solver applied to a matrix with
two identical rows throws the zero-denominator error (from dividing by the
zero rational in back substitution), never `SingularMatrix`. -/
theorem solve_dup (n : ℕ) (Mq : MatQ) (bq : VecQ)
    (h : ∃ p q, p ≠ q ∧ p < n ∧ q < n ∧ ∀ c, c < n → Mq p c = Mq q c) :
    solve n (liftM Mq) (liftV bq) = .error .zeroDenominator := by
  rw [solve_eq_solveQ, solveQ_dup n Mq bq h]
  rfl

/-! #### The approximate solver on a matrix with two identical rows -/

theorem pElimA_zero (M : MatQ) (colK n r : ℕ) : pElimA M colK n r 0 = M := by
  funext t c
  unfold pElimA
  rw [if_neg (by omega)]

theorem pElimVA_zero (M : MatQ) (y : VecQ) (colK r : ℕ) : pElimVA M y colK r 0 = y := by
  funext t
  unfold pElimVA
  rw [if_neg (by omega)]

theorem pElimA_of_pos (M : MatQ) (colK n r cnt t c : ℕ)
    (h : r ≤ t ∧ t < r + cnt ∧ colK ≤ c ∧ c < n) :
    pElimA M colK n r cnt t c = M t c - M t colK / M colK colK * M colK c := if_pos h

theorem pElimA_of_ne (M : MatQ) (colK n r cnt t c : ℕ)
    (h : ¬(r ≤ t ∧ t < r + cnt ∧ colK ≤ c ∧ c < n)) :
    pElimA M colK n r cnt t c = M t c := if_neg h

theorem elimEntriesA_eq : ∀ (cnt c : ℕ) (f : ℚ) (p row : ℕ → ℚ),
    elimEntriesA f p c cnt row =
      fun t => if c ≤ t ∧ t < c + cnt then row t - f * p t else row t := by
  intro cnt
  induction cnt with
  | zero =>
    intro c f p row
    funext t
    show row t = _
    rw [if_neg (by omega)]
  | succ cnt ih =>
    intro c f p row
    show elimEntriesA f p (c + 1) cnt (Function.update row c (row c - f * p c)) = _
    rw [ih]
    funext t
    by_cases ht : t = c
    · subst ht
      rw [if_neg (by omega), Function.update_same, if_pos (by omega)]
    · by_cases h2 : c ≤ t ∧ t < c + (cnt + 1)
      · rw [if_pos (by omega), if_pos h2, Function.update_noteq ht]
      · rw [if_neg (by omega), if_neg h2, Function.update_noteq ht]

theorem pElimA_step (M : MatQ) (colK n r cnt : ℕ) (hcr : colK < r) :
    pElimA (Function.update M r
        (fun c => if colK ≤ c ∧ c < colK + (n - colK) then
          M r c - M r colK / M colK colK * M colK c else M r c))
      colK n (r + 1) cnt = pElimA M colK n r (cnt + 1) := by
  funext t c
  unfold pElimA
  by_cases ht : t = r
  · subst ht
    rw [if_neg (by omega), Function.update_same]
    by_cases hc : colK ≤ c ∧ c < n
    · rw [if_pos (by omega), if_pos ⟨by omega, by omega, hc.1, hc.2⟩]
    · rw [if_neg (by omega), if_neg (by tauto)]
  · have hM : ∀ t' c', t' ≠ r → Function.update M r
        (fun c => if colK ≤ c ∧ c < colK + (n - colK) then
          M r c - M r colK / M colK colK * M colK c else M r c) t' c' = M t' c' := by
      intro t' c' h
      rw [Function.update_noteq h]
    rw [hM t c ht, hM t colK ht, hM colK c (by omega), hM colK colK (by omega)]
    by_cases h1 : r + 1 ≤ t ∧ t < r + 1 + cnt ∧ colK ≤ c ∧ c < n
    · rw [if_pos h1, if_pos ⟨by omega, by omega, h1.2.2⟩]
    · rw [if_neg h1, if_neg (by intro h2; exact h1 ⟨by omega, by omega, h2.2.2⟩)]

theorem pElimVA_step (M : MatQ) (y : VecQ) (colK n r cnt : ℕ) (hcr : colK < r) :
    pElimVA (Function.update M r
        (fun c => if colK ≤ c ∧ c < colK + (n - colK) then
          M r c - M r colK / M colK colK * M colK c else M r c))
      (Function.update y r (y r - M r colK / M colK colK * y colK))
      colK (r + 1) cnt = pElimVA M y colK r (cnt + 1) := by
  funext t
  unfold pElimVA
  by_cases ht : t = r
  · subst ht
    rw [if_neg (by omega), if_pos ⟨by omega, by omega⟩, Function.update_same]
  · have hM : ∀ t' c', t' ≠ r → Function.update M r
        (fun c => if colK ≤ c ∧ c < colK + (n - colK) then
          M r c - M r colK / M colK colK * M colK c else M r c) t' c' = M t' c' := by
      intro t' c' h
      rw [Function.update_noteq h]
    have hy : Function.update y r (y r - M r colK / M colK colK * y colK) t = y t :=
      Function.update_noteq ht _ _
    have hycol : Function.update y r (y r - M r colK / M colK colK * y colK) colK = y colK :=
      Function.update_noteq (by omega) _ _
    rw [hM t colK ht, hM colK colK (by omega), hy, hycol]
    by_cases h1 : r + 1 ≤ t ∧ t < r + 1 + cnt
    · rw [if_pos h1, if_pos ⟨by omega, by omega⟩]
    · rw [if_neg h1, if_neg (by omega)]

theorem elimRowsA_eq : ∀ (cnt r colK n : ℕ) (M : MatQ) (y : VecQ), colK < r →
    elimRowsA colK n r cnt M y = (pElimA M colK n r cnt, pElimVA M y colK r cnt) := by
  intro cnt
  induction cnt with
  | zero =>
    intro r colK n M y _
    show (M, y) = _
    rw [pElimA_zero, pElimVA_zero]
  | succ cnt ih =>
    intro r colK n M y hcr
    show elimRowsA colK n (r + 1) cnt
      (Function.update M r (elimEntriesA (M r colK / M colK colK) (M colK) colK (n - colK) (M r)))
      (Function.update y r (y r - M r colK / M colK colK * y colK)) = _
    rw [elimEntriesA_eq]
    rw [ih (r + 1) colK n _ _ (by omega)]
    rw [pElimA_step M colK n r cnt hcr, pElimVA_step M y colK n r cnt hcr]

theorem findMaxLoop_spec : ∀ (cnt r : ℕ) (M : MatQ) (colK : ℕ) (best : ℕ × ℚ),
    best.2 = |M best.1 colK| →
    (findMaxLoop M colK r cnt best).2 = |M (findMaxLoop M colK r cnt best).1 colK| ∧
    ((findMaxLoop M colK r cnt best).1 = best.1 ∨
      (r ≤ (findMaxLoop M colK r cnt best).1 ∧ (findMaxLoop M colK r cnt best).1 < r + cnt)) ∧
    best.2 ≤ (findMaxLoop M colK r cnt best).2 ∧
    ∀ t, r ≤ t → t < r + cnt → |M t colK| ≤ (findMaxLoop M colK r cnt best).2 := by
  intro cnt
  induction cnt with
  | zero =>
    intro r M colK best hb
    exact ⟨hb, Or.inl rfl, le_refl _, fun t h1 h2 => by omega⟩
  | succ cnt ih =>
    intro r M colK best hb
    set best1 := if best.2 < |M r colK| then (r, |M r colK|) else best with hb1
    rw [show findMaxLoop M colK r (cnt + 1) best =
      findMaxLoop M colK (r + 1) cnt best1 from rfl]
    have hb1v : best1.2 = |M best1.1 colK| := by
      rw [hb1]
      split_ifs
      · rfl
      · exact hb
    have hmono : best.2 ≤ best1.2 := by
      rw [hb1]
      split_ifs with h
      · exact le_of_lt h
      · exact le_refl _
    have hrle : |M r colK| ≤ best1.2 := by
      rw [hb1]
      split_ifs with h
      · exact le_refl _
      · exact not_lt.mp h
    have hpos1 : best1.1 = best.1 ∨ best1.1 = r := by
      rw [hb1]
      split_ifs
      · right; rfl
      · left; rfl
    obtain ⟨ih1, ih2, ih3, ih4⟩ := ih (r + 1) M colK best1 hb1v
    refine ⟨ih1, ?_, le_trans hmono ih3, ?_⟩
    · rcases ih2 with h | h
      · rcases hpos1 with h2 | h2
        · left
          rw [h, h2]
        · right
          rw [h, h2]
          omega
      · right
        omega
    · intro t h1 h2
      rcases Nat.eq_or_lt_of_le h1 with h | h
      · rw [← h]
        exact le_trans hrle ih3
      · exact ih4 t (by omega) (by omega)

theorem elimInvA_step (n col b1 : ℕ) (hcol : col < n) (hb1 : col ≤ b1 ∧ b1 < n)
    (M : MatQ) (hbval : M b1 col ≠ 0)
    (hinv : DupPair n col M ∨ ZeroRowBelow n col M) :
    DupPair n (col + 1) (pElimA (swapIdx M col b1) col n (col + 1) (n - (col + 1))) ∨
    ZeroRowBelow n (col + 1) (pElimA (swapIdx M col b1) col n (col + 1) (n - (col + 1))) := by
  set M1 := swapIdx M col b1 with hM1
  have hMc : M1 col col = M b1 col := congrFun (swapIdx_fst M col b1) col
  have hpz : M1 col col ≠ 0 := by
    rw [hMc]
    exact hbval
  rcases hinv with ⟨p, q, hcp, hcq, hpq, hpn, hqn, heq⟩ | ⟨zp, hzp1, hzpn, hz⟩
  · set p1 := if p = col then b1 else if p = b1 then col else p with hp1def
    set q1 := if q = col then b1 else if q = b1 then col else q with hq1def
    have hrowp : M1 p1 = M p := swapIdx_transp M col b1 p
    have hrowq : M1 q1 = M q := swapIdx_transp M col b1 q
    have hp1r : col ≤ p1 ∧ p1 < n := by rw [hp1def]; split_ifs <;> omega
    have hq1r : col ≤ q1 ∧ q1 < n := by rw [hq1def]; split_ifs <;> omega
    have hp1q1 : p1 ≠ q1 := by rw [hp1def, hq1def]; split_ifs <;> omega
    have h1eq : ∀ c, col ≤ c → c < n → M1 p1 c = M1 q1 c := by
      intro c h1 h2
      rw [congrFun hrowp c, congrFun hrowq c]
      exact heq c h1 h2
    by_cases hc1 : p1 = col
    · right
      have hq1nz : M1 q1 col = M1 col col := by
        have h := h1eq col le_rfl hcol
        rw [hc1] at h
        exact h.symm
      refine ⟨q1, by omega, hq1r.2, ?_⟩
      intro c hcc1 hcc2
      rw [pElimA_of_pos _ _ _ _ _ _ _ ⟨by omega, by omega, by omega, hcc2⟩]
      rw [hq1nz, div_self hpz, one_mul]
      have h := h1eq c (by omega) hcc2
      rw [hc1] at h
      rw [h]
      exact sub_self _
    · by_cases hc2 : q1 = col
      · right
        have hp1nz : M1 p1 col = M1 col col := by
          have h := h1eq col le_rfl hcol
          rw [hc2] at h
          exact h
        refine ⟨p1, by omega, hp1r.2, ?_⟩
        intro c hcc1 hcc2
        rw [pElimA_of_pos _ _ _ _ _ _ _ ⟨by omega, by omega, by omega, hcc2⟩]
        rw [hp1nz, div_self hpz, one_mul]
        have h := h1eq c (by omega) hcc2
        rw [hc2] at h
        rw [h]
        exact sub_self _
      · left
        refine ⟨p1, q1, by omega, by omega, hp1q1, hp1r.2, hq1r.2, ?_⟩
        intro c hcc1 hcc2
        rw [pElimA_of_pos _ _ _ _ _ _ _ ⟨by omega, by omega, by omega, hcc2⟩,
          pElimA_of_pos _ _ _ _ _ _ _ ⟨by omega, by omega, by omega, hcc2⟩]
        rw [h1eq c (by omega) hcc2, h1eq col le_rfl hcol]
  · right
    have hzpb : zp ≠ b1 := by
      intro h
      apply hbval
      rw [← h]
      exact hz col le_rfl hcol
    by_cases hzc : zp = col
    · subst hzc
      have hbcol : b1 ≠ zp := fun h => hzpb h.symm
      have hrow : M1 b1 = M zp := swapIdx_snd M zp b1 hbcol
      refine ⟨b1, by omega, hb1.2, ?_⟩
      intro c hcc1 hcc2
      rw [pElimA_of_pos _ _ _ _ _ _ _ ⟨by omega, by omega, by omega, hcc2⟩]
      rw [congrFun hrow c, congrFun hrow zp, hz zp le_rfl hcol, hz c (by omega) hcc2,
        zero_div, zero_mul, sub_zero]
    · have hrow : M1 zp = M zp := swapIdx_of_ne M col b1 zp hzc hzpb
      refine ⟨zp, by omega, hzpn, ?_⟩
      intro c hcc1 hcc2
      rw [pElimA_of_pos _ _ _ _ _ _ _ ⟨by omega, by omega, by omega, hcc2⟩]
      rw [congrFun hrow c, congrFun hrow col, hz col le_rfl hcol, hz c (by omega) hcc2,
        zero_div, zero_mul, sub_zero]

theorem forwardA_dup : ∀ (cnt col n : ℕ) (M : MatQ) (y : VecQ), col + cnt = n →
    (DupPair n col M ∨ ZeroRowBelow n col M) →
    forwardA n col cnt M y = .error .singularMatrix := by
  intro cnt
  induction cnt with
  | zero =>
    intro col n M y hn hinv
    exfalso
    rcases hinv with ⟨p, q, h1, h2, h3, h4, h5, _⟩ | ⟨p, h1, h2, _⟩ <;> omega
  | succ cnt ih =>
    intro col n M y hn hinv
    have hcol : col < n := by omega
    obtain ⟨hs1, hs2, hs3, hs4⟩ := findMaxLoop_spec (n - (col + 1)) (col + 1) M col
      (col, |M col col|) rfl
    show (if (findMaxLoop M col (col + 1) (n - (col + 1)) (col, |M col col|)).2 = 0
      then Except.error Err.singularMatrix else _) = _
    set best := findMaxLoop M col (col + 1) (n - (col + 1)) (col, |M col col|) with hbest
    by_cases hz : best.2 = 0
    · rw [if_pos hz]
    · rw [if_neg hz]
      have hbpos : col ≤ best.1 ∧ best.1 < n := by
        rcases hs2 with h | h
        · rw [h]
          exact ⟨le_rfl, hcol⟩
        · omega
      have hbval : M best.1 col ≠ 0 := by
        intro h0
        apply hz
        rw [hs1, h0, abs_zero]
      have hM1 : (if best.1 ≠ col then swapIdx M col best.1 else M) = swapIdx M col best.1 := by
        by_cases h : best.1 = col
        · rw [if_neg (by simp [h]), h, swapIdx_self]
        · rw [if_pos h]
      have hy1 : (if best.1 ≠ col then swapIdx y col best.1 else y) = swapIdx y col best.1 := by
        by_cases h : best.1 = col
        · rw [if_neg (by simp [h]), h, swapIdx_self]
        · rw [if_pos h]
      show forwardA n (col + 1) cnt
        (elimRowsA col n (col + 1) (n - (col + 1))
          (if best.1 ≠ col then swapIdx M col best.1 else M)
          (if best.1 ≠ col then swapIdx y col best.1 else y)).1
        (elimRowsA col n (col + 1) (n - (col + 1))
          (if best.1 ≠ col then swapIdx M col best.1 else M)
          (if best.1 ≠ col then swapIdx y col best.1 else y)).2 = _
      rw [hM1, hy1, elimRowsA_eq (n - (col + 1)) (col + 1) col n _ _ (by omega)]
      exact ih (col + 1) n _ _ (by omega)
        (elimInvA_step n col best.1 hcol hbpos M hbval hinv)

theorem solveLinearSystem_dup (n : ℕ) (M : MatQ) (b : VecQ)
    (h : ∃ p q, p ≠ q ∧ p < n ∧ q < n ∧ ∀ c, c < n → M p c = M q c) :
    solveLinearSystem n M b = .error .singularMatrix := by
  obtain ⟨p, q, hpq, hpn, hqn, heq⟩ := h
  show (forwardA n 0 n M b >>= fun p1 =>
    pure ((List.range n).map (backLoopA p1.1 p1.2 n n (fun _ => 0)))) = _
  rw [forwardA_dup n 0 n M b (Nat.zero_add n)
    (Or.inl ⟨p, q, Nat.zero_le p, Nat.zero_le q, hpq, hpn, hqn, fun c _ hc => heq c hc⟩)]
  rfl

/-- Claim C2 (counterexample): on the 2 × 2 all-ones system, the exact
solver `solve` of `src/index2.js` fails with the zero-denominator error —
dividing by the zero rational in back substitution — not with
`SingularMatrix` as the claim states (only `src/index.js` has a
`SingularMatrix` throw site). -/
theorem solve_identical_rows_counterexample :
    solve 2 (fun _ _ => ⟨1, 1⟩) (fun _ => ⟨1, 1⟩) = .error .zeroDenominator ∧
    Err.zeroDenominator ≠ Err.singularMatrix := by
  constructor
  · decide
  · decide

/-- Claim C2 (amended): for every `n × n` matrix containing two identical
rows, neither solver returns a coefficient vector: the approximate solver
`solveLinearSystem` of `src/index.js` fails with `SingularMatrix`, while the
exact solver `solve` of `src/index2.js` (on canonical rational entries)
fails with the zero-denominator error raised when back substitution divides
by the zero rational left on the diagonal. -/
theorem identical_rows_both_solvers_fail :
    (∀ (n : ℕ) (M : MatQ) (b : VecQ),
      (∃ p q, p ≠ q ∧ p < n ∧ q < n ∧ ∀ c, c < n → M p c = M q c) →
      solveLinearSystem n M b = .error .singularMatrix) ∧
    (∀ (n : ℕ) (Mq : MatQ) (bq : VecQ),
      (∃ p q, p ≠ q ∧ p < n ∧ q < n ∧ ∀ c, c < n → Mq p c = Mq q c) →
      solve n (liftM Mq) (liftV bq) = .error .zeroDenominator) :=
  ⟨solveLinearSystem_dup, solve_dup⟩

/-! #### Back substitution and row operations: exact metatheory over `ℚ` -/

theorem dotSeg_eq_sum : ∀ (cnt j : ℕ) (M : MatQ) (x : ℕ → ℚ) (i : ℕ) (s : ℚ),
    dotSeg M x i j cnt s = s + ∑ t ∈ Finset.range cnt, M i (j + t) * x (j + t) := by
  intro cnt
  induction cnt with
  | zero =>
    intro j M x i s
    show s = _
    rw [Finset.range_zero, Finset.sum_empty, add_zero]
  | succ cnt ih =>
    intro j M x i s
    show dotSeg M x i (j + 1) cnt (s + M i j * x j) = _
    rw [ih, Finset.sum_range_succ']
    have h1 : ∑ t ∈ Finset.range cnt, M i (j + (t + 1)) * x (j + (t + 1)) =
        ∑ t ∈ Finset.range cnt, M i (j + 1 + t) * x (j + 1 + t) :=
      Finset.sum_congr rfl fun t _ => by rw [show j + (t + 1) = j + 1 + t from by omega]
    rw [h1, Nat.add_zero j, add_assoc, add_comm (M i j * x j)]

theorem dotSeg_Ico (M : MatQ) (x : ℕ → ℚ) (i j n : ℕ) :
    dotSeg M x i j (n - j) 0 = ∑ c ∈ Finset.Ico j n, M i c * x c := by
  rw [dotSeg_eq_sum, Finset.sum_Ico_eq_sum_range, zero_add]

theorem backQ_ok : ∀ (i : ℕ) (M : MatQ) (b : VecQ) (n : ℕ) (x : ℕ → ℚ),
    (∀ t, t < i → M t t ≠ 0) →
    ∃ xf, backQ M b n i x = .ok xf ∧ (∀ t, i ≤ t → xf t = x t) ∧
      (∀ t, t < i → xf t = (b t - ∑ c ∈ Finset.Ico (t + 1) n, M t c * xf c) / M t t) := by
  intro i
  induction i with
  | zero =>
    intro M b n x _
    exact ⟨x, rfl, fun t _ => rfl, fun t ht => absurd ht (by omega)⟩
  | succ i ih =>
    intro M b n x hd
    have hMii : M i i ≠ 0 := hd i (by omega)
    have hstep : backQ M b n (i + 1) x = backQ M b n i
        (Function.update x i ((b i - dotSeg M x i (i + 1) (n - (i + 1)) 0) / M i i)) := by
      show (if M i i = 0 then _ else _) = _
      rw [if_neg hMii]
    obtain ⟨xf, heq, hhigh, heqn⟩ := ih M b n
      (Function.update x i ((b i - dotSeg M x i (i + 1) (n - (i + 1)) 0) / M i i))
      (fun t ht => hd t (by omega))
    refine ⟨xf, by rw [hstep]; exact heq, ?_, ?_⟩
    · intro t ht
      rw [hhigh t (by omega), Function.update_noteq (by omega)]
    · intro t ht
      rcases Nat.lt_succ_iff_lt_or_eq.mp ht with h | h
      · exact heqn t h
      · subst h
        rw [hhigh t le_rfl, Function.update_same]
        congr 1
        congr 1
        rw [dotSeg_Ico]
        apply Finset.sum_congr rfl
        intro c hc
        have hcr := (Finset.mem_Ico.mp hc).1
        rw [hhigh c (by omega), Function.update_noteq (by omega)]

theorem backQ_solves (n : ℕ) (M : MatQ) (b : VecQ) (xf : ℕ → ℚ)
    (hdiag : ∀ j, j < n → M j j ≠ 0)
    (hlow : ∀ c, c < n → ∀ r, c < r → r < n → M r c = 0)
    (hxf : ∀ t, t < n → xf t = (b t - ∑ c ∈ Finset.Ico (t + 1) n, M t c * xf c) / M t t) :
    SolvesQ n M b xf := by
  intro i hi
  rw [Finset.range_eq_Ico, ← Finset.sum_Ico_consecutive _ (Nat.zero_le i) (le_of_lt hi)]
  have h1 : ∑ c ∈ Finset.Ico 0 i, M i c * xf c = 0 :=
    Finset.sum_eq_zero fun c hc => by
      have hc2 := (Finset.mem_Ico.mp hc).2
      rw [hlow c (by omega) i hc2 hi, zero_mul]
  rw [h1, zero_add, Finset.sum_eq_sum_Ico_succ_bot hi, hxf i hi,
    mul_div_cancel₀ _ (hdiag i hi)]
  ring

theorem solvesQ_swap (n i j : ℕ) (hi : i < n) (hj : j < n) (M : MatQ) (b : VecQ)
    (z : ℕ → ℚ) :
    SolvesQ n (swapIdx M i j) (swapIdx b i j) z ↔ SolvesQ n M b z := by
  constructor
  · intro h r hr
    have h2 := h (if r = i then j else if r = j then i else r) (by split_ifs <;> omega)
    rw [show swapIdx M i j (if r = i then j else if r = j then i else r) = M r from
      swapIdx_transp M i j r] at h2
    rw [show swapIdx b i j (if r = i then j else if r = j then i else r) = b r from
      swapIdx_transp b i j r] at h2
    exact h2
  · intro h r hr
    by_cases h1 : r = i
    · subst h1
      rw [show swapIdx M r j r = M j from swapIdx_fst M r j,
        show swapIdx b r j r = b j from swapIdx_fst b r j]
      exact h j hj
    · by_cases h2 : r = j
      · subst h2
        rw [show swapIdx M i r r = M i from swapIdx_snd M i r h1,
          show swapIdx b i r r = b i from swapIdx_snd b i r h1]
        exact h i hi
      · rw [show swapIdx M i j r = M r from swapIdx_of_ne M i j r h1 h2,
          show swapIdx b i j r = b r from swapIdx_of_ne b i j r h1 h2]
        exact h r hr

theorem rowsum_elim (n col : ℕ) (M : MatQ) (z : ℕ → ℚ) (r : ℕ)
    (hact : col < r ∧ r < n ∧ M r col ≠ 0)
    (hleft : ∀ c, c < col → M col c = 0) :
    ∑ c ∈ Finset.range n, elimStepQ n col M r c * z c =
      (∑ c ∈ Finset.range n, M r c * z c) -
        M r col / M col col * ∑ c ∈ Finset.range n, M col c * z c := by
  rw [Finset.mul_sum, ← Finset.sum_sub_distrib]
  apply Finset.sum_congr rfl
  intro c hc
  have hcn := Finset.mem_range.mp hc
  by_cases h : col ≤ c
  · rw [elimStepQ_of_pos _ _ _ _ _ ⟨hact.1, hact.2.1, hact.2.2, h, hcn⟩]
    ring
  · rw [elimStepQ_of_ne _ _ _ _ _ (fun hh => h hh.2.2.2.1), hleft c (by omega)]
    ring

theorem solvesQ_elim (n col : ℕ) (hcol : col < n) (M : MatQ) (b : VecQ)
    (hleft : ∀ c, c < col → M col c = 0) (z : ℕ → ℚ) :
    SolvesQ n (elimStepQ n col M) (elimVecQ n col M b) z ↔ SolvesQ n M b z := by
  have hrow_inact : ∀ r, ¬(col < r ∧ r < n ∧ M r col ≠ 0) →
      (∀ c, elimStepQ n col M r c = M r c) ∧ elimVecQ n col M b r = b r := by
    intro r hr
    exact ⟨fun c => elimStepQ_of_ne _ _ _ _ _ (fun h => hr ⟨h.1, h.2.1, h.2.2.1⟩),
      if_neg hr⟩
  constructor
  · intro h r hr
    by_cases hact : col < r ∧ r < n ∧ M r col ≠ 0
    · have hin := hrow_inact col (by omega)
      have hcoleq : (∑ c ∈ Finset.range n, M col c * z c) = b col := by
        have h2 := h col hcol
        rw [show elimVecQ n col M b col = b col from hin.2] at h2
        rw [show (∑ c ∈ Finset.range n, elimStepQ n col M col c * z c) =
          ∑ c ∈ Finset.range n, M col c * z c from
          Finset.sum_congr rfl (fun c _ => by rw [hin.1 c])] at h2
        exact h2
      have h2 := h r hr
      rw [rowsum_elim n col M z r hact hleft] at h2
      rw [show elimVecQ n col M b r = b r - M r col / M col col * b col from
        if_pos hact] at h2
      rw [hcoleq] at h2
      linarith [h2]
    · have hin := hrow_inact r hact
      have h2 := h r hr
      rw [show (∑ c ∈ Finset.range n, elimStepQ n col M r c * z c) =
        ∑ c ∈ Finset.range n, M r c * z c from
        Finset.sum_congr rfl (fun c _ => by rw [hin.1 c]), hin.2] at h2
      exact h2
  · intro h r hr
    by_cases hact : col < r ∧ r < n ∧ M r col ≠ 0
    · rw [rowsum_elim n col M z r hact hleft,
        show elimVecQ n col M b r = b r - M r col / M col col * b col from if_pos hact,
        h r hr, h col hcol]
    · have hin := hrow_inact r hact
      rw [show (∑ c ∈ Finset.range n, elimStepQ n col M r c * z c) =
        ∑ c ∈ Finset.range n, M r c * z c from
        Finset.sum_congr rfl (fun c _ => by rw [hin.1 c]), hin.2]
      exact h r hr

theorem pivot_none_all_zero (M : MatQ) (col n : ℕ)
    (h0 : swapIdx M col (pivotQ M col n) col col = 0) :
    ∀ r, col ≤ r → r < n → M r col = 0 := by
  cases hf : (List.range' col (n - col)).find? fun r => M r col != 0 with
  | none =>
    intro r hr1 hr2
    have := List.find?_eq_none.mp hf r (List.mem_range'_1.mpr ⟨hr1, by omega⟩)
    simpa using this
  | some p =>
    exfalso
    have hpv : M p col ≠ 0 := by simpa using List.find?_some hf
    have hpiv : pivotQ M col n = p := by
      unfold pivotQ
      rw [hf]
      rfl
    have hswap : swapIdx M col (pivotQ M col n) col col = M p col := by
      rw [hpiv]
      unfold swapIdx
      rw [if_pos rfl]
    exact hpv (hswap ▸ h0)

/-! #### The kernel vector of an all-zero pivot column -/

theorem kernelVec_self (M : MatQ) (col : ℕ) : kernelVec M col col = 1 := by
  rw [kernelVec, if_pos rfl]

theorem kernelVec_gt (M : MatQ) (col j : ℕ) (h : col < j) : kernelVec M col j = 0 := by
  rw [kernelVec, if_neg (by omega), if_pos h]

theorem kernelVec_lt (M : MatQ) (col j : ℕ) (h : j < col) :
    kernelVec M col j =
      -(∑ c ∈ Finset.Ioc j col, M j c * kernelVec M col c) / M j j := by
  rw [kernelVec, if_neg (by omega), if_neg (by omega),
    show (∑ c ∈ (Finset.Ioc j col).attach, M j c.1 * kernelVec M col c.1) =
      ∑ c ∈ Finset.Ioc j col, M j c * kernelVec M col c from
      Finset.sum_attach (Finset.Ioc j col) (fun c => M j c * kernelVec M col c)]

theorem kernel_dot_zero (n col : ℕ) (hcol : col < n) (M : MatQ)
    (hdiag : ∀ j, j < col → M j j ≠ 0)
    (hlow : ∀ c, c < col → ∀ r, c < r → r < n → M r c = 0)
    (hzero : ∀ r, col ≤ r → r < n → M r col = 0) :
    ∀ i, i < n → (∑ c ∈ Finset.range n, M i c * kernelVec M col c) = 0 := by
  intro i hi
  have hreduce : (∑ c ∈ Finset.range n, M i c * kernelVec M col c) =
      ∑ c ∈ Finset.range (col + 1), M i c * kernelVec M col c := by
    symm
    apply Finset.sum_subset (Finset.range_subset.mpr (by omega))
    intro c hc hnc
    have hgt : col < c := by
      simp only [Finset.mem_range] at hc hnc
      omega
    rw [kernelVec_gt M col c hgt, mul_zero]
  rw [hreduce]
  by_cases hic : i < col
  · rw [Finset.range_eq_Ico,
      ← Finset.sum_Ico_consecutive _ (Nat.zero_le i) (by omega : i ≤ col + 1)]
    have h1 : ∑ c ∈ Finset.Ico 0 i, M i c * kernelVec M col c = 0 :=
      Finset.sum_eq_zero fun c hc => by
        have hc2 := (Finset.mem_Ico.mp hc).2
        rw [hlow c (by omega) i (by omega) hi, zero_mul]
    rw [h1, zero_add, Finset.sum_eq_sum_Ico_succ_bot (by omega : i < col + 1)]
    have hIoc : Finset.Ico (i + 1) (col + 1) = Finset.Ioc i col := by
      rw [Nat.Ico_succ_right, Nat.Icc_succ_left]
    rw [hIoc, kernelVec_lt M col i hic, mul_div_cancel₀ _ (hdiag i hic)]
    ring
  · apply Finset.sum_eq_zero
    intro c hc
    have hcc := Finset.mem_range.mp hc
    by_cases hceq : c = col
    · subst hceq
      rw [hzero i (by omega) hi, zero_mul]
    · rw [hlow c (by omega) i (by omega) hi, zero_mul]

/-- The forward elimination of `solveQ`, run on a system with the unique
solution `s`, preserves the solution set and produces an upper-triangular
matrix with non-zero diagonal.  Pivot existence follows from uniqueness via
the kernel vector `kernelVec`. -/
theorem forwardQ_unique : ∀ (cnt col n : ℕ) (M : MatQ) (b : VecQ) (s : ℕ → ℚ),
    col + cnt = n →
    SolvesQ n M b s →
    (∀ z, SolvesQ n M b z → ∀ j, j < n → z j = s j) →
    (∀ j, j < col → M j j ≠ 0) →
    (∀ c, c < col → ∀ r, c < r → r < n → M r c = 0) →
    SolvesQ n (forwardQ n col cnt M b).1 (forwardQ n col cnt M b).2 s ∧
    (∀ z, SolvesQ n (forwardQ n col cnt M b).1 (forwardQ n col cnt M b).2 z →
      ∀ j, j < n → z j = s j) ∧
    (∀ j, j < n → (forwardQ n col cnt M b).1 j j ≠ 0) ∧
    (∀ c, c < n → ∀ r, c < r → r < n → (forwardQ n col cnt M b).1 r c = 0) := by
  intro cnt
  induction cnt with
  | zero =>
    intro col n M b s hn hsol huniq hdiag hlow
    have hcn : col = n := by omega
    subst hcn
    exact ⟨hsol, huniq, hdiag, hlow⟩
  | succ cnt ih =>
    intro col n M b s hn hsol huniq hdiag hlow
    have hcol : col < n := by omega
    have hple := pivotQ_le M col n
    have hplt := pivotQ_lt M col n hcol
    set P := pivotQ M col n with hPdef
    set M1 := swapIdx M col P with hM1def
    set b1 := swapIdx b col P with hb1def
    have hswap_iff : ∀ z, SolvesQ n M1 b1 z ↔ SolvesQ n M b z :=
      fun z => solvesQ_swap n col P hcol hplt M b z
    have hP0 : M1 col col ≠ 0 := by
      intro h0
      have hallz : ∀ r, col ≤ r → r < n → M r col = 0 := pivot_none_all_zero M col n h0
      have hker := kernel_dot_zero n col hcol M hdiag hlow hallz
      have hzsol : SolvesQ n M b (fun t => s t + kernelVec M col t) := by
        intro i hi
        have hsum : (∑ c ∈ Finset.range n, M i c * (s c + kernelVec M col c)) =
            (∑ c ∈ Finset.range n, M i c * s c) +
              ∑ c ∈ Finset.range n, M i c * kernelVec M col c := by
          rw [← Finset.sum_add_distrib]
          exact Finset.sum_congr rfl fun c _ => by ring
        rw [hsum, hker i hi, add_zero]
        exact hsol i hi
      have hcontr := huniq _ hzsol col hcol
      rw [kernelVec_self] at hcontr
      linarith [hcontr]
    have hM1colrow : M1 col = M P := swapIdx_fst M col P
    have hleft1 : ∀ c, c < col → M1 col c = 0 := by
      intro c hc
      rw [congrFun hM1colrow c]
      exact hlow c hc P (by omega) hplt
    have helim_iff : ∀ z, SolvesQ n (elimStepQ n col M1) (elimVecQ n col M1 b1) z ↔
        SolvesQ n M1 b1 z := fun z => solvesQ_elim n col hcol M1 b1 hleft1 z
    have hM1_untouched : ∀ r, r < col → M1 r = M r :=
      fun r hr => swapIdx_of_ne M col P r (by omega) (by omega)
    have hdiag2 : ∀ j, j < col + 1 → elimStepQ n col M1 j j ≠ 0 := by
      intro j hj
      rcases Nat.lt_succ_iff_lt_or_eq.mp hj with h | h
      · rw [elimStepQ_of_ne _ _ _ _ _ (fun hh => absurd hh.1 (by omega))]
        rw [congrFun (hM1_untouched j h) j]
        exact hdiag j h
      · subst h
        rw [elimStepQ_of_ne _ _ _ _ _ (fun hh => absurd hh.1 (by omega))]
        exact hP0
    have hlow2 : ∀ c, c < col + 1 → ∀ r, c < r → r < n → elimStepQ n col M1 r c = 0 := by
      intro c hc r hcr hrn
      rcases Nat.lt_succ_iff_lt_or_eq.mp hc with h | h
      · rw [elimStepQ_of_ne _ _ _ _ _ (fun hh => absurd hh.2.2.2.1 (by omega))]
        by_cases h1 : r = col
        · rw [h1, congrFun hM1colrow c]
          exact hlow c h P (by omega) hplt
        · by_cases h2 : r = P
          · by_cases h3 : P = col
            · exact absurd (h2.trans h3) h1
            · have hM1Prow : M1 P = M col := swapIdx_snd M col P h3
              rw [h2, congrFun hM1Prow c]
              exact hlow c h col (by omega) hcol
          · have hrrow : M1 r = M r := swapIdx_of_ne M col P r h1 h2
            rw [congrFun hrrow c]
            exact hlow c h r (by omega) hrn
      · subst h
        by_cases hz : M1 r c = 0
        · rw [elimStepQ_of_ne _ _ _ _ _ (fun hh => hh.2.2.1 hz)]
          exact hz
        · rw [elimStepQ_of_pos _ _ _ _ _ ⟨by omega, hrn, hz, le_rfl, hcol⟩,
            div_mul_cancel₀ _ hP0]
          exact sub_self _
    have hsol1 : SolvesQ n (elimStepQ n col M1) (elimVecQ n col M1 b1) s :=
      (helim_iff s).mpr ((hswap_iff s).mpr hsol)
    have huniq1 : ∀ z, SolvesQ n (elimStepQ n col M1) (elimVecQ n col M1 b1) z →
        ∀ j, j < n → z j = s j :=
      fun z hz => huniq z ((hswap_iff z).mp ((helim_iff z).mp hz))
    exact ih (col + 1) n (elimStepQ n col M1) (elimVecQ n col M1 b1) s
      (by omega) hsol1 huniq1 hdiag2 hlow2

/-- `solveQ` succeeds on a system with a unique solution and returns it. -/
theorem solveQ_unique (n : ℕ) (M : MatQ) (b : VecQ) (s : ℕ → ℚ)
    (hsol : SolvesQ n M b s)
    (huniq : ∀ z, SolvesQ n M b z → ∀ j, j < n → z j = s j) :
    solveQ n M b = .ok ((List.range n).map s) := by
  obtain ⟨hsol2, huniq2, hdiag2, hlow2⟩ :=
    forwardQ_unique n 0 n M b s (Nat.zero_add n) hsol huniq
      (fun j hj => absurd hj (by omega)) (fun c hc => absurd hc (by omega))
  obtain ⟨xf, heq, hhigh, heqn⟩ := backQ_ok n (forwardQ n 0 n M b).1
    (forwardQ n 0 n M b).2 n (fun _ => 0) (fun t ht => hdiag2 t ht)
  have hxsol : SolvesQ n (forwardQ n 0 n M b).1 (forwardQ n 0 n M b).2 xf :=
    backQ_solves n _ _ xf hdiag2 hlow2 heqn
  have hxf_eq : ∀ j, j < n → xf j = s j := huniq2 xf hxsol
  show (backQ (forwardQ n 0 n M b).1 (forwardQ n 0 n M b).2 n n (fun _ => 0) >>=
    fun x => pure ((List.range n).map x)) = _
  rw [heq]
  show Except.ok ((List.range n).map xf) = _
  congr 1
  apply List.map_congr_left
  intro a ha
  exact hxf_eq a (List.mem_range.mp ha)

/-! #### Encoder round-trip and pipeline evaluation -/

theorem makeFrac_one (n : ℤ) : makeFrac n 1 = .ok ⟨n, 1⟩ := by
  rw [makeFrac_eq n 1 one_ne_zero]
  norm_num
  show liftF ((n : ℚ)) = _
  unfold liftF
  rw [Rat.num_intCast, Rat.den_intCast]
  rfl

theorem parseLoop_append (B : ℤ) : ∀ (l1 l2 : List Char) (acc : ℤ),
    parseLoop B (l1 ++ l2) acc =
      (parseLoop B l1 acc >>= fun r => parseLoop B l2 r) := by
  intro l1
  induction l1 with
  | nil => intro l2 acc; rfl
  | cons ch rest ih =>
    intro l2 acc
    by_cases h : digitIndex ch < 0
    · have h1 : parseLoop B ((ch :: rest) ++ l2) acc =
          .error (.invalidDigit ch) := by
        show (if digitIndex ch < 0 then _ else _) = _
        rw [if_pos h]
      have h2 : parseLoop B (ch :: rest) acc = .error (.invalidDigit ch) := by
        show (if digitIndex ch < 0 then _ else _) = _
        rw [if_pos h]
      rw [h1, h2]
      rfl
    · have h1 : parseLoop B ((ch :: rest) ++ l2) acc =
          parseLoop B (rest ++ l2) (acc * B + digitIndex ch) := by
        show (if digitIndex ch < 0 then _ else _) = _
        rw [if_neg h]
        rfl
      have h2 : parseLoop B (ch :: rest) acc =
          parseLoop B rest (acc * B + digitIndex ch) := by
        show (if digitIndex ch < 0 then _ else _) = _
        rw [if_neg h]
      rw [h1, h2, ih]

theorem digitChar36_spec : ∀ d : ℕ, d < 36 →
    Char.toLower (digitChar36 d) = digitChar36 d ∧
      digitIndex (digitChar36 d) = (d : ℤ) := by
  decide

theorem encChars_decode (b : ℕ) (hb2 : 2 ≤ b) (hb36 : b ≤ 36) :
    ∀ (fuel m : ℕ), m < fuel → ∀ acc : ℤ,
      parseLoop (b : ℤ) ((encChars b fuel m).map Char.toLower) acc =
        .ok (acc * (b : ℤ) ^ (encChars b fuel m).length + (m : ℤ)) := by
  intro fuel
  induction fuel with
  | zero => intro m hm; omega
  | succ fuel ih =>
    intro m hm acc
    by_cases hm0 : m = 0
    · subst hm0
      show parseLoop (b : ℤ) (([] : List Char).map Char.toLower) acc = _
      simp [parseLoop, encChars]
    · have henc : encChars b (fuel + 1) m =
          encChars b fuel (m / b) ++ [digitChar36 (m % b)] := by
        show (if m = 0 then _ else _) = _
        rw [if_neg hm0]
      rw [henc, List.map_append, parseLoop_append]
      have hdiv : m / b < fuel := by
        have h1 : m / b < m := Nat.div_lt_self (by omega) (by omega)
        omega
      rw [ih (m / b) hdiv acc]
      have hd := digitChar36_spec (m % b) (by
        have := Nat.mod_lt m (show 0 < b by omega)
        omega)
      show parseLoop (b : ℤ) [Char.toLower (digitChar36 (m % b))] _ = _
      rw [hd.1]
      have hstep : ∀ r : ℤ, parseLoop (b : ℤ) [digitChar36 (m % b)] r =
          .ok (r * (b : ℤ) + ((m % b : ℕ) : ℤ)) := by
        intro r
        show (if digitIndex (digitChar36 (m % b)) < 0 then _ else _) = _
        rw [hd.2, if_neg (by omega)]
        rfl
      rw [hstep]
      rw [List.length_append, List.length_singleton]
      have harith : ((m / b : ℕ) : ℤ) * (b : ℤ) + ((m % b : ℕ) : ℤ) = (m : ℤ) := by
        exact_mod_cast Nat.div_add_mod' m b
      rw [pow_succ]
      congr 1
      linear_combination harith

theorem encodeInt_decode (b m : ℤ) (hb2 : 2 ≤ b) (hb36 : b ≤ 36) (hm : 0 ≤ m) :
    parseInBase (encodeInt b m) b = .ok m := by
  have hbb : ((b.toNat : ℤ)) = b := Int.toNat_of_nonneg (by omega)
  have key := encChars_decode b.toNat (by omega) (by omega)
    (m.toNat + 1) m.toNat (by omega) 0
  rw [hbb] at key
  show parseLoop b ((encChars b.toNat (m.toNat + 1) m.toNat).map Char.toLower) 0
      = .ok m
  rw [key, zero_mul, zero_add, Int.toNat_of_nonneg hm]

theorem mapM_ok {α β : Type} (f : α → Except Err β) (g : α → β) :
    ∀ l : List α, (∀ x ∈ l, f x = .ok (g x)) → l.mapM f = .ok (l.map g) := by
  intro l
  induction l with
  | nil => intro _; rfl
  | cons a l ih =>
    intro h
    rw [List.mapM_cons, h a (List.mem_cons_self a l),
      ih (fun x hx => h x (List.mem_cons_of_mem a hx))]
    rfl

theorem decodePoints_ok (vals : ℕ → String) (bases : ℕ → ℤ) (y : ℕ → ℤ) :
    ∀ (cnt i : ℕ),
      (∀ t, i ≤ t → t < i + cnt → parseInBase (vals t) (bases t) = .ok (y t)) →
      decodePoints vals bases i cnt =
        .ok ((List.range cnt).map fun t => (((i + t : ℕ) : ℤ), y (i + t))) := by
  intro cnt
  induction cnt with
  | zero => intro i _; rfl
  | succ cnt ih =>
    intro i h
    show (do
      let yv ← parseInBase (vals i) (bases i)
      let rest ← decodePoints vals bases (i + 1) cnt
      return ((i : ℤ), yv) :: rest) = _
    rw [h i (le_refl i) (by omega)]
    rw [ih (i + 1) (fun t ht1 ht2 => h t (by omega) (by omega))]
    show Except.ok (((i : ℤ), y i) ::
        (List.range cnt).map fun t => (((i + 1 + t : ℕ) : ℤ), y (i + 1 + t))) = _
    have hhead : ((i : ℤ), y i) = (((i + 0 : ℕ) : ℤ), y (i + 0)) := by norm_num
    have htail : ((List.range cnt).map fun t => (((i + 1 + t : ℕ) : ℤ), y (i + 1 + t)))
        = (List.range cnt).map
            ((fun t => (((i + t : ℕ) : ℤ), y (i + t))) ∘ Nat.succ) := by
      apply List.map_congr_left
      intro t ht
      show (((i + 1 + t : ℕ) : ℤ), y (i + 1 + t))
          = (((i + (t + 1) : ℕ) : ℤ), y (i + (t + 1)))
      have harr : i + (t + 1) = i + 1 + t := by omega
      rw [harr]
    rw [List.range_succ_eq_map, List.map_cons, List.map_map, ← hhead, ← htail]

theorem buildRowF_ok (x : ℤ) :
    ∀ (m : ℕ) (xpow : ℤ),
      buildRowF x m xpow =
        .ok ((List.range m).map fun j => (⟨xpow * x ^ j, 1⟩ : Frac)) := by
  intro m
  induction m with
  | zero => intro xpow; rfl
  | succ m ih =>
    intro xpow
    show (do
      let e ← makeFrac xpow 1
      let rest ← buildRowF x m (xpow * x)
      return e :: rest) = _
    rw [makeFrac_one, ih (xpow * x)]
    show Except.ok ((⟨xpow, 1⟩ : Frac) ::
        (List.range m).map fun j => (⟨xpow * x * x ^ j, 1⟩ : Frac)) = _
    rw [List.range_succ_eq_map, List.map_cons, List.map_map]
    congr 1
    congr 1
    · show (⟨xpow, 1⟩ : Frac) = ⟨xpow * x ^ 0, 1⟩
      rw [pow_zero, mul_one]
    · apply List.map_congr_left
      intro t ht
      show (⟨xpow * x * x ^ t, 1⟩ : Frac) = ⟨xpow * x ^ (t + 1), 1⟩
      have harr : xpow * x * x ^ t = xpow * x ^ (t + 1) := by ring
      rw [harr]

theorem buildMatF_ok (points : List (ℤ × ℤ)) (k : ℕ) :
    buildMatF points k = .ok ((List.range k).map fun i =>
      (List.range k).map fun j => (⟨(points.getD i (0, 0)).1 ^ j, 1⟩ : Frac)) := by
  unfold buildMatF
  apply mapM_ok
  intro i hi
  rw [buildRowF_ok]
  congr 1
  apply List.map_congr_left
  intro j hj
  show (⟨1 * (points.getD i (0, 0)).1 ^ j, 1⟩ : Frac) = _
  rw [one_mul]

theorem buildRhsF_ok (points : List (ℤ × ℤ)) (k : ℕ) :
    buildRhsF points k = .ok ((List.range k).map fun i =>
      (⟨(points.getD i (0, 0)).2, 1⟩ : Frac)) := by
  unfold buildRhsF
  apply mapM_ok
  intro i hi
  exact makeFrac_one _

/-! #### Uniqueness of polynomial interpolation at the nodes 1, ..., k -/

theorem poly_vanish_zero (k : ℕ) (hk : 1 ≤ k) (z : ℕ → ℚ)
    (hz : ∀ i, i < k → (∑ j ∈ Finset.range k, z j * ((i : ℚ) + 1) ^ j) = 0) :
    ∀ t, t < k → z t = 0 := by
  set p : Polynomial ℚ := ∑ j ∈ Finset.range k, Polynomial.C (z j) * Polynomial.X ^ j
    with hp
  have hcoeff : ∀ t, t < k → p.coeff t = z t := by
    intro t ht
    rw [hp, Polynomial.finset_sum_coeff]
    have hterm : ∀ j ∈ Finset.range k,
        (Polynomial.C (z j) * Polynomial.X ^ j).coeff t
          = if t = j then z j else 0 := by
      intro j hj
      rw [Polynomial.coeff_C_mul, Polynomial.coeff_X_pow]
      by_cases h : t = j
      · rw [if_pos h, if_pos h, mul_one]
      · rw [if_neg h, if_neg h, mul_zero]
    rw [Finset.sum_congr rfl hterm, Finset.sum_ite_eq,
      if_pos (Finset.mem_range.mpr ht)]
  have hdeg : p.natDegree < k := by
    have h1 : p.natDegree ≤ k - 1 := by
      rw [hp]
      apply Polynomial.natDegree_sum_le_of_forall_le
      intro j hj
      have h2 : (Polynomial.C (z j) * Polynomial.X ^ j).natDegree ≤ j :=
        (Polynomial.natDegree_C_mul_le _ _).trans
          (le_of_eq (Polynomial.natDegree_X_pow j))
      have h3 : j ≤ k - 1 := by
        have := Finset.mem_range.mp hj
        omega
      omega
    omega
  have heval : ∀ i : Fin k, p.eval (((i : ℕ) : ℚ) + 1) = 0 := by
    intro i
    rw [hp]
    have he : (∑ j ∈ Finset.range k, Polynomial.C (z j) * Polynomial.X ^ j).eval
        (((i : ℕ) : ℚ) + 1)
        = ∑ j ∈ Finset.range k, z j * (((i : ℕ) : ℚ) + 1) ^ j := by
      rw [Polynomial.eval_finset_sum]
      apply Finset.sum_congr rfl
      intro j hj
      rw [Polynomial.eval_mul, Polynomial.eval_C, Polynomial.eval_pow,
        Polynomial.eval_X]
    rw [he]
    exact hz i i.isLt
  have hinj : Function.Injective (fun i : Fin k => ((i : ℕ) : ℚ) + 1) := by
    intro a b h
    have h1 : ((a : ℕ) : ℚ) + 1 = ((b : ℕ) : ℚ) + 1 := h
    have h2 : ((a : ℕ) : ℚ) = ((b : ℕ) : ℚ) := by linarith
    have h3 : (a : ℕ) = (b : ℕ) := Nat.cast_injective h2
    exact Fin.ext h3
  have hp0 : p = 0 :=
    Polynomial.eq_zero_of_natDegree_lt_card_of_eval_eq_zero p hinj heval
      (by rw [Fintype.card_fin]; exact hdeg)
  intro t ht
  rw [← hcoeff t ht, hp0, Polynomial.coeff_zero]

theorem vandermonde_unique (k : ℕ) (hk : 1 ≤ k) (z w : ℕ → ℚ)
    (h : ∀ i, i < k →
      (∑ j ∈ Finset.range k, z j * ((i : ℚ) + 1) ^ j)
        = ∑ j ∈ Finset.range k, w j * ((i : ℚ) + 1) ^ j) :
    ∀ t, t < k → z t = w t := by
  intro t ht
  have hv := poly_vanish_zero k hk (fun j => z j - w j) (fun i hi => by
    have hsub : (∑ j ∈ Finset.range k, (z j - w j) * ((i : ℚ) + 1) ^ j)
        = (∑ j ∈ Finset.range k, z j * ((i : ℚ) + 1) ^ j)
          - ∑ j ∈ Finset.range k, w j * ((i : ℚ) + 1) ^ j := by
      rw [← Finset.sum_sub_distrib]
      apply Finset.sum_congr rfl
      intro j hj
      ring
    rw [hsub, h i hi, sub_self]) t ht
  have hzw : z t - w t = 0 := hv
  linarith

/-! #### Assembly of the round-trip pipeline -/

theorem except_bind_ok {α β : Type} (x : α) (f : α → Except Err β) :
    (Except.ok x >>= f) = f x := rfl

theorem liftF_intCast (z : ℤ) : liftF ((z : ℚ)) = ⟨z, 1⟩ := by
  unfold liftF
  rw [Rat.num_intCast, Rat.den_intCast]
  rfl

theorem liftF_natCast_pow (n j : ℕ) :
    liftF (((n : ℚ)) ^ j) = ⟨((n : ℤ)) ^ j, 1⟩ := by
  have h1 : ((n : ℚ)) ^ j = (((n ^ j : ℕ)) : ℚ) := by push_cast; ring
  rw [h1]
  unfold liftF
  rw [Rat.num_natCast, Rat.den_natCast]
  have h2 : ((n ^ j : ℕ) : ℤ) = ((n : ℤ)) ^ j := by push_cast; ring
  rw [h2]
  rfl

theorem Peval_zero (a : ℕ → ℤ) (k : ℕ) (hk : 1 ≤ k) : Peval a k 0 = a 0 := by
  unfold Peval
  rw [Finset.sum_eq_single_of_mem 0 (Finset.mem_range.mpr (by omega))]
  · rw [pow_zero, mul_one]
  · intro j hj hj0
    rw [zero_pow hj0, mul_zero]

theorem vandQ_solves (a : ℕ → ℤ) (k : ℕ) :
    SolvesQ k (vandQ k) (vandRhs a k) (coeffQ a) := by
  intro i hi
  have hL : (∑ c ∈ Finset.range k, vandQ k i c * coeffQ a c)
      = ∑ c ∈ Finset.range k, ((a c : ℚ)) * (((i + 1 : ℕ)) : ℚ) ^ c := by
    apply Finset.sum_congr rfl
    intro c hc
    show (if i < k ∧ c < k then (((i + 1 : ℕ)) : ℚ) ^ c else 0) * ((a c : ℚ)) = _
    rw [if_pos ⟨hi, Finset.mem_range.mp hc⟩]
    ring
  rw [hL]
  show _ = (if i < k then ((Peval a k ((1 + i : ℕ) : ℤ)) : ℚ) else 0)
  rw [if_pos hi]
  unfold Peval
  push_cast
  apply Finset.sum_congr rfl
  intro c hc
  ring

theorem vandQ_unique_sol (a : ℕ → ℤ) (k : ℕ) (hk : 1 ≤ k) :
    ∀ z, SolvesQ k (vandQ k) (vandRhs a k) z → ∀ j, j < k → z j = coeffQ a j := by
  intro z hz
  apply vandermonde_unique k hk z (coeffQ a)
  intro i hi
  have hVz : ∀ (w : ℕ → ℚ), (∑ c ∈ Finset.range k, vandQ k i c * w c)
      = ∑ c ∈ Finset.range k, w c * ((i : ℚ) + 1) ^ c := by
    intro w
    apply Finset.sum_congr rfl
    intro c hc
    show (if i < k ∧ c < k then (((i + 1 : ℕ)) : ℚ) ^ c else 0) * w c = _
    rw [if_pos ⟨hi, Finset.mem_range.mp hc⟩]
    push_cast
    ring
  rw [← hVz z, ← hVz (coeffQ a), hz i hi, vandQ_solves a k i hi]

theorem solveQ_vand (a : ℕ → ℤ) (k : ℕ) (hk : 1 ≤ k) :
    solveQ k (vandQ k) (vandRhs a k) = .ok ((List.range k).map (coeffQ a)) :=
  solveQ_unique k (vandQ k) (vandRhs a k) (coeffQ a) (vandQ_solves a k)
    (vandQ_unique_sol a k hk)

theorem runMain_solve (k : ℕ) (vals : ℕ → String) (bases : ℕ → ℤ)
    (pts : List (ℤ × ℤ))
    (hdec : decodePoints vals bases 1 k = .ok pts) :
    runMain k vals bases = solve k
      (fun i j => ((((List.range k).map fun i2 => (List.range k).map fun j2 =>
          (⟨(pts.getD i2 (0, 0)).1 ^ j2, 1⟩ : Frac)).getD i []).getD j ⟨0, 1⟩))
      (fun i => (((List.range k).map fun i2 =>
          (⟨(pts.getD i2 (0, 0)).2, 1⟩ : Frac)).getD i ⟨0, 1⟩)) := by
  unfold runMain
  rw [hdec]
  show ((buildMatF pts k) >>= fun A => (buildRhsF pts k) >>= fun b =>
      solve k (fun i j => (A.getD i []).getD j ⟨0, 1⟩)
        (fun i => b.getD i ⟨0, 1⟩)) = _
  rw [buildMatF_ok]
  show ((buildRhsF pts k) >>= fun b =>
      solve k (fun i j => ((((List.range k).map fun i2 => (List.range k).map fun j2 =>
          (⟨(pts.getD i2 (0, 0)).1 ^ j2, 1⟩ : Frac)).getD i []).getD j ⟨0, 1⟩))
        (fun i => b.getD i ⟨0, 1⟩)) = _
  rw [buildRhsF_ok]
  rfl

theorem matFun_eq_liftM (k : ℕ) (pts : List (ℤ × ℤ))
    (hx : ∀ i, i < k → (pts.getD i (0, 0)).1 = ((1 + i : ℕ) : ℤ)) :
    (fun i j => ((((List.range k).map fun i2 => (List.range k).map fun j2 =>
        (⟨(pts.getD i2 (0, 0)).1 ^ j2, 1⟩ : Frac)).getD i []).getD j ⟨0, 1⟩))
      = liftM (vandQ k) := by
  funext i j
  by_cases hi : i < k
  · simp only [getD_map_range _ k i hi]
    by_cases hj : j < k
    · simp only [getD_map_range _ k j hj]
      show (⟨(pts.getD i (0, 0)).1 ^ j, 1⟩ : Frac) = liftF (vandQ k i j)
      rw [hx i hi]
      unfold vandQ
      rw [if_pos ⟨hi, hj⟩, liftF_natCast_pow, Nat.add_comm 1 i]
    · rw [List.getD_eq_default]
      · show (⟨0, 1⟩ : Frac) = liftF (vandQ k i j)
        unfold vandQ
        rw [if_neg (fun hc => hj hc.2)]
        rfl
      · rw [List.length_map, List.length_range]
        omega
  · have houter : (((List.range k).map fun i2 => (List.range k).map fun j2 =>
        (⟨(pts.getD i2 (0, 0)).1 ^ j2, 1⟩ : Frac)).getD i ([] : List Frac)) = [] := by
      apply List.getD_eq_default
      rw [List.length_map, List.length_range]
      omega
    rw [houter]
    show (⟨0, 1⟩ : Frac) = liftF (vandQ k i j)
    unfold vandQ
    rw [if_neg (fun hc => hi hc.1)]
    rfl

theorem rhsFun_eq_liftV (k : ℕ) (a : ℕ → ℤ) (pts : List (ℤ × ℤ))
    (hy : ∀ i, i < k → (pts.getD i (0, 0)).2 = Peval a k ((1 + i : ℕ) : ℤ)) :
    (fun i => (((List.range k).map fun i2 =>
        (⟨(pts.getD i2 (0, 0)).2, 1⟩ : Frac)).getD i ⟨0, 1⟩))
      = liftV (vandRhs a k) := by
  funext i
  by_cases hi : i < k
  · simp only [getD_map_range _ k i hi]
    show (⟨(pts.getD i (0, 0)).2, 1⟩ : Frac) = liftF (vandRhs a k i)
    rw [hy i hi]
    unfold vandRhs
    rw [if_pos hi, liftF_intCast]
  · rw [List.getD_eq_default]
    · show (⟨0, 1⟩ : Frac) = liftF (vandRhs a k i)
      unfold vandRhs
      rw [if_neg hi]
      rfl
    · rw [List.length_map, List.length_range]
      omega

theorem runMain_exact (k : ℕ) (hk : 1 ≤ k) (a : ℕ → ℤ) (bases : ℕ → ℤ)
    (hb : ∀ i, 1 ≤ i → i ≤ k → 2 ≤ bases i ∧ bases i ≤ 36)
    (hnn : ∀ i, 1 ≤ i → i ≤ k → 0 ≤ Peval a k (i : ℤ)) :
    runMain k (fun i => encodeInt (bases i) (Peval a k (i : ℤ))) bases
      = .ok ((List.range k).map fun j => (⟨a j, 1⟩ : Frac)) := by
  have hdec : decodePoints (fun i => encodeInt (bases i) (Peval a k (i : ℤ))) bases 1 k
      = .ok ((List.range k).map fun t =>
          (((1 + t : ℕ) : ℤ), Peval a k ((1 + t : ℕ) : ℤ))) := by
    refine decodePoints_ok _ bases (fun t => Peval a k (t : ℤ)) k 1 ?_
    intro t ht1 ht2
    have htk : t ≤ k := by omega
    obtain ⟨hb1, hb2⟩ := hb t ht1 htk
    exact encodeInt_decode (bases t) _ hb1 hb2 (hnn t ht1 htk)
  rw [runMain_solve k _ bases _ hdec]
  have hx : ∀ i, i < k →
      ((((List.range k).map fun t =>
        (((1 + t : ℕ) : ℤ), Peval a k ((1 + t : ℕ) : ℤ))).getD i (0, 0)).1
        = ((1 + i : ℕ) : ℤ)) := by
    intro i hi
    rw [getD_map_range _ k i hi]
  have hy : ∀ i, i < k →
      ((((List.range k).map fun t =>
        (((1 + t : ℕ) : ℤ), Peval a k ((1 + t : ℕ) : ℤ))).getD i (0, 0)).2
        = Peval a k ((1 + i : ℕ) : ℤ)) := by
    intro i hi
    rw [getD_map_range _ k i hi]
  rw [matFun_eq_liftM k _ hx, rhsFun_eq_liftV k a _ hy,
    solve_eq_solveQ, solveQ_vand a k hk]
  show Except.ok (((List.range k).map (coeffQ a)).map liftF) = _
  rw [List.map_map]
  refine congrArg Except.ok (List.map_congr_left ?_)
  intro t ht
  exact liftF_intCast (a t)

/-- Claim C1: for every polynomial `P` of degree at most `k-1` with integer
coefficients (and non-negative values at the nodes, so that the samples have
digit-string encodings), building the `k` sample points `(i, P(i))` for
`i = 1..k`, encoding each `P(i)` as a digit string in any base 2-36, decoding
with `parseInBase`, building the Vandermonde system and running the exact
rational solver returns a coefficient vector whose entry 0 equals `P(0)`
exactly, with denominator 1. -/
theorem polynomial_roundtrip (k : ℕ) (a : ℕ → ℤ) (bases : ℕ → ℤ) (hk : 1 ≤ k)
    (hb : ∀ i, 1 ≤ i → i ≤ k → 2 ≤ bases i ∧ bases i ≤ 36)
    (hnn : ∀ i, 1 ≤ i → i ≤ k → 0 ≤ Peval a k (i : ℤ)) :
    ∃ xs, runMain k (fun i => encodeInt (bases i) (Peval a k (i : ℤ))) bases = .ok xs
      ∧ xs.getD 0 ⟨0, 1⟩ = ⟨Peval a k 0, 1⟩ ∧ xs.length = k := by
  refine ⟨(List.range k).map fun j => (⟨a j, 1⟩ : Frac),
    runMain_exact k hk a bases hb hnn, ?_, ?_⟩
  · rw [getD_map_range _ k 0 (by omega), Peval_zero a k hk]
  · rw [List.length_map, List.length_range]

theorem polynomial_roundtrip_witness :
    ∃ xs, runMain 2
        (fun i => encodeInt ((fun _ => (10 : ℤ)) i)
          (Peval (fun j => if j = 0 then 3 else if j = 1 then 2 else 0) 2 (i : ℤ)))
        (fun _ => (10 : ℤ)) = .ok xs
      ∧ xs.getD 0 ⟨0, 1⟩
          = ⟨Peval (fun j => if j = 0 then 3 else if j = 1 then 2 else 0) 2 0, 1⟩
      ∧ xs.length = 2 :=
  polynomial_roundtrip 2 (fun j => if j = 0 then 3 else if j = 1 then 2 else 0)
    (fun _ => 10) (by omega)
    (fun i h1 h2 => ⟨by norm_num, by norm_num⟩)
    (fun i h1 h2 => by
      have hi : i = 1 ∨ i = 2 := by omega
      rcases hi with h | h <;> subst h <;> decide)

/-! #### Input extensionality of the exact solver (determinism) -/

theorem find?_congr_range (p q : ℕ → Bool) :
    ∀ (cnt start : ℕ), (∀ r, start ≤ r → r < start + cnt → p r = q r) →
      (List.range' start cnt).find? p = (List.range' start cnt).find? q := by
  intro cnt
  induction cnt with
  | zero => intro start h; rfl
  | succ cnt ih =>
    intro start h
    have hp := h start (le_refl start) (by omega)
    rw [List.range'_succ]
    by_cases hs : p start = true
    · rw [List.find?_cons_of_pos _ hs, List.find?_cons_of_pos _ (by rw [← hp]; exact hs)]
    · have hs2 : ¬q start = true := by rw [← hp]; exact hs
      rw [List.find?_cons_of_neg _ hs, List.find?_cons_of_neg _ hs2]
      exact ih (start + 1) (fun r h1 h2 => h r (by omega) (by omega))

theorem pivotQ_congr (n col : ℕ) (M M' : MatQ)
    (h : ∀ i j, i < n → j < n → M i j = M' i j) (hcol : col < n) :
    pivotQ M col n = pivotQ M' col n := by
  unfold pivotQ
  rw [find?_congr_range (fun r => M r col != 0) (fun r => M' r col != 0)
    (n - col) col ?_]
  intro r h1 h2
  show (M r col != 0) = (M' r col != 0)
  rw [h r col (by omega) hcol]

theorem swapIdxM_agree (n : ℕ) (M M' : MatQ) (i j : ℕ)
    (h : ∀ r c, r < n → c < n → M r c = M' r c) (hi : i < n) (hj : j < n) :
    ∀ r c, r < n → c < n → swapIdx M i j r c = swapIdx M' i j r c := by
  intro r c hr hc
  unfold swapIdx
  split_ifs with h1 h2
  · exact h j c hj hc
  · exact h i c hi hc
  · exact h r c hr hc

theorem swapIdxV_agree (n : ℕ) (b b' : VecQ) (i j : ℕ)
    (h : ∀ t, t < n → b t = b' t) (hi : i < n) (hj : j < n) :
    ∀ t, t < n → swapIdx b i j t = swapIdx b' i j t := by
  intro t ht
  unfold swapIdx
  split_ifs with h1 h2
  · exact h j hj
  · exact h i hi
  · exact h t ht

theorem elimStepQ_congr (n col : ℕ) (M M' : MatQ) (hcol : col < n)
    (h : ∀ r c, r < n → c < n → M r c = M' r c) :
    ∀ r c, r < n → c < n → elimStepQ n col M r c = elimStepQ n col M' r c := by
  intro r c hr hc
  unfold elimStepQ
  have hrcol : M r col = M' r col := h r col hr hcol
  by_cases hcond : col < r ∧ r < n ∧ M r col ≠ 0 ∧ col ≤ c ∧ c < n
  · rw [if_pos hcond,
      if_pos (show col < r ∧ r < n ∧ M' r col ≠ 0 ∧ col ≤ c ∧ c < n from
        ⟨hcond.1, hcond.2.1, by rw [← hrcol]; exact hcond.2.2.1, hcond.2.2.2⟩),
      h r c hr hc, hrcol, h col col hcol hcol, h col c hcol hc]
  · rw [if_neg hcond,
      if_neg (show ¬(col < r ∧ r < n ∧ M' r col ≠ 0 ∧ col ≤ c ∧ c < n) from
        fun hc2 => hcond ⟨hc2.1, hc2.2.1, by rw [hrcol]; exact hc2.2.2.1, hc2.2.2.2⟩),
      h r c hr hc]

theorem elimVecQ_congr (n col : ℕ) (M M' : MatQ) (b b' : VecQ) (hcol : col < n)
    (hM : ∀ r c, r < n → c < n → M r c = M' r c)
    (hb : ∀ t, t < n → b t = b' t) :
    ∀ r, r < n → elimVecQ n col M b r = elimVecQ n col M' b' r := by
  intro r hr
  unfold elimVecQ
  have hrcol : M r col = M' r col := hM r col hr hcol
  by_cases hcond : col < r ∧ r < n ∧ M r col ≠ 0
  · rw [if_pos hcond,
      if_pos (show col < r ∧ r < n ∧ M' r col ≠ 0 from
        ⟨hcond.1, hcond.2.1, by rw [← hrcol]; exact hcond.2.2⟩),
      hb r hr, hrcol, hM col col hcol hcol, hb col hcol]
  · rw [if_neg hcond,
      if_neg (show ¬(col < r ∧ r < n ∧ M' r col ≠ 0) from
        fun hc2 => hcond ⟨hc2.1, hc2.2.1, by rw [hrcol]; exact hc2.2.2⟩),
      hb r hr]

theorem forwardQ_congr (n : ℕ) :
    ∀ (cnt col : ℕ) (M M' : MatQ) (b b' : VecQ), col + cnt = n →
      (∀ r c, r < n → c < n → M r c = M' r c) →
      (∀ t, t < n → b t = b' t) →
      (∀ r c, r < n → c < n →
          (forwardQ n col cnt M b).1 r c = (forwardQ n col cnt M' b').1 r c) ∧
      (∀ t, t < n → (forwardQ n col cnt M b).2 t = (forwardQ n col cnt M' b').2 t) := by
  intro cnt
  induction cnt with
  | zero => intro col M M' b b' hcol hM hb; exact ⟨hM, hb⟩
  | succ cnt ih =>
    intro col M M' b b' hcol hM hb
    have hcoln : col < n := by omega
    have hp : pivotQ M col n = pivotQ M' col n := pivotQ_congr n col M M' hM hcoln
    have hlt : pivotQ M col n < n := pivotQ_lt M col n hcoln
    set p := pivotQ M col n with hpdef
    have hM1 := swapIdxM_agree n M M' col p hM hcoln hlt
    have hb1 := swapIdxV_agree n b b' col p hb hcoln hlt
    have hM2 := elimStepQ_congr n col (swapIdx M col p) (swapIdx M' col p) hcoln hM1
    have hb2 := elimVecQ_congr n col (swapIdx M col p) (swapIdx M' col p)
      (swapIdx b col p) (swapIdx b' col p) hcoln hM1 hb1
    have hmain := ih (col + 1) (elimStepQ n col (swapIdx M col p))
      (elimStepQ n col (swapIdx M' col p))
      (elimVecQ n col (swapIdx M col p) (swapIdx b col p))
      (elimVecQ n col (swapIdx M' col p) (swapIdx b' col p))
      (by omega) hM2 hb2
    constructor
    · intro r c hr hc
      show (forwardQ n (col + 1) cnt (elimStepQ n col (swapIdx M col p))
          (elimVecQ n col (swapIdx M col p) (swapIdx b col p))).1 r c
        = (forwardQ n (col + 1) cnt
            (elimStepQ n col (swapIdx M' col (pivotQ M' col n)))
            (elimVecQ n col (swapIdx M' col (pivotQ M' col n))
              (swapIdx b' col (pivotQ M' col n)))).1 r c
      rw [← hp]
      exact hmain.1 r c hr hc
    · intro t ht
      show (forwardQ n (col + 1) cnt (elimStepQ n col (swapIdx M col p))
          (elimVecQ n col (swapIdx M col p) (swapIdx b col p))).2 t
        = (forwardQ n (col + 1) cnt
            (elimStepQ n col (swapIdx M' col (pivotQ M' col n)))
            (elimVecQ n col (swapIdx M' col (pivotQ M' col n))
              (swapIdx b' col (pivotQ M' col n)))).2 t
      rw [← hp]
      exact hmain.2 t ht

theorem dotSeg_congr (n : ℕ) (M M' : MatQ) (x x' : ℕ → ℚ) (i : ℕ) (hi : i < n)
    (hM : ∀ r c, r < n → c < n → M r c = M' r c)
    (hx : ∀ t, t < n → x t = x' t) :
    ∀ (cnt j : ℕ) (s : ℚ), j + cnt ≤ n →
      dotSeg M x i j cnt s = dotSeg M' x' i j cnt s := by
  intro cnt
  induction cnt with
  | zero => intro j s hle; rfl
  | succ cnt ih =>
    intro j s hle
    show dotSeg M x i (j + 1) cnt (s + M i j * x j)
      = dotSeg M' x' i (j + 1) cnt (s + M' i j * x' j)
    rw [← hM i j hi (by omega), ← hx j (by omega)]
    exact ih (j + 1) _ (by omega)

theorem backQ_congr (n : ℕ) (M M' : MatQ) (b b' : VecQ)
    (hM : ∀ r c, r < n → c < n → M r c = M' r c)
    (hb : ∀ t, t < n → b t = b' t) :
    ∀ (i : ℕ) (x x' : ℕ → ℚ), i ≤ n → (∀ t, t < n → x t = x' t) →
      (backQ M b n i x = .error .zeroDenominator ∧
       backQ M' b' n i x' = .error .zeroDenominator) ∨
      (∃ u u', backQ M b n i x = .ok u ∧ backQ M' b' n i x' = .ok u' ∧
        ∀ t, t < n → u t = u' t) := by
  intro i
  induction i with
  | zero => intro x x' hle hx; right; exact ⟨x, x', rfl, rfl, hx⟩
  | succ i ih =>
    intro x x' hle hx
    have hii : M i i = M' i i := hM i i (by omega) (by omega)
    by_cases hz : M i i = 0
    · left
      constructor
      · show (if M i i = 0 then _ else _) = _
        rw [if_pos hz]
      · show (if M' i i = 0 then _ else _) = _
        rw [if_pos (by rw [← hii]; exact hz)]
    · have hupd : ∀ t, t < n →
          Function.update x i
            ((b i - dotSeg M x i (i + 1) (n - (i + 1)) 0) / M i i) t
          = Function.update x' i
            ((b' i - dotSeg M' x' i (i + 1) (n - (i + 1)) 0) / M' i i) t := by
        intro t ht
        by_cases hti : t = i
        · subst hti
          rw [Function.update_same, Function.update_same, hb t (by omega), hii,
            dotSeg_congr n M M' x x' t (by omega) hM hx (n - (t + 1)) (t + 1) 0
              (by omega)]
        · rw [Function.update_noteq hti, Function.update_noteq hti]
          exact hx t ht
      have hrec := ih _ _ (by omega) hupd
      have hL : backQ M b n (i + 1) x = backQ M b n i
          (Function.update x i
            ((b i - dotSeg M x i (i + 1) (n - (i + 1)) 0) / M i i)) := by
        show (if M i i = 0 then _ else _) = _
        rw [if_neg hz]
      have hR : backQ M' b' n (i + 1) x' = backQ M' b' n i
          (Function.update x' i
            ((b' i - dotSeg M' x' i (i + 1) (n - (i + 1)) 0) / M' i i)) := by
        show (if M' i i = 0 then _ else _) = _
        rw [if_neg (by rw [← hii]; exact hz)]
      rw [hL, hR]
      exact hrec

theorem solveQ_congr (n : ℕ) (M M' : MatQ) (b b' : VecQ)
    (hM : ∀ r c, r < n → c < n → M r c = M' r c)
    (hb : ∀ t, t < n → b t = b' t) :
    solveQ n M b = solveQ n M' b' := by
  obtain ⟨hMf, hbf⟩ := forwardQ_congr n n 0 M M' b b' (by omega) hM hb
  rcases backQ_congr n _ _ _ _ hMf hbf n (fun _ => 0) (fun _ => 0) (le_refl n)
      (fun t ht => rfl) with ⟨he1, he2⟩ | ⟨u, u', hu1, hu2, hagree⟩
  · show (backQ (forwardQ n 0 n M b).1 (forwardQ n 0 n M b).2 n n (fun _ => 0)
        >>= fun x => pure ((List.range n).map x)) = _
    rw [he1]
    show _ = (backQ (forwardQ n 0 n M' b').1 (forwardQ n 0 n M' b').2 n n
        (fun _ => 0) >>= fun x => pure ((List.range n).map x))
    rw [he2]
  · show (backQ (forwardQ n 0 n M b).1 (forwardQ n 0 n M b).2 n n (fun _ => 0)
        >>= fun x => pure ((List.range n).map x))
      = (backQ (forwardQ n 0 n M' b').1 (forwardQ n 0 n M' b').2 n n (fun _ => 0)
        >>= fun x => pure ((List.range n).map x))
    rw [hu1, hu2]
    show Except.ok ((List.range n).map u) = Except.ok ((List.range n).map u')
    refine congrArg Except.ok (List.map_congr_left ?_)
    intro t ht
    exact hagree t (List.mem_range.mp ht)

/-- Claim C9: the exact solver is deterministic.  `solve` is a pure function
of the finite input data: for matrices and right-hand sides of canonical
rationals, any two inputs holding equal values in the `n × n` system (even if
the ambient total functions of the embedding differ elsewhere) produce
literally identical results — in particular two runs on equal inputs are
bit-identical, with no hidden state or platform dependence. -/
theorem solve_deterministic (n : ℕ) (M M' : MatF) (b b' : VecF)
    (hcanM : ∀ i j, (M i j).Canonical) (hcanM2 : ∀ i j, (M' i j).Canonical)
    (hcanb : ∀ i, (b i).Canonical) (hcanb2 : ∀ i, (b' i).Canonical)
    (hM : ∀ i j, i < n → j < n → M i j = M' i j)
    (hb : ∀ i, i < n → b i = b' i) :
    solve n M b = solve n M' b' := by
  have hqM : M = liftM (fun i j => ((M i j).num : ℚ) / ((M i j).den : ℚ)) := by
    funext i j
    exact canonical_eq_liftF (M i j) (hcanM i j)
  have hqM2 : M' = liftM (fun i j => ((M' i j).num : ℚ) / ((M' i j).den : ℚ)) := by
    funext i j
    exact canonical_eq_liftF (M' i j) (hcanM2 i j)
  have hqb : b = liftV (fun i => ((b i).num : ℚ) / ((b i).den : ℚ)) := by
    funext i
    exact canonical_eq_liftF (b i) (hcanb i)
  have hqb2 : b' = liftV (fun i => ((b' i).num : ℚ) / ((b' i).den : ℚ)) := by
    funext i
    exact canonical_eq_liftF (b' i) (hcanb2 i)
  rw [hqM, hqM2, hqb, hqb2, solve_eq_solveQ, solve_eq_solveQ]
  rw [solveQ_congr n _ _ _ _ ?_ ?_]
  · intro r c hr hc
    show ((M r c).num : ℚ) / ((M r c).den : ℚ)
      = ((M' r c).num : ℚ) / ((M' r c).den : ℚ)
    rw [hM r c hr hc]
  · intro t ht
    show ((b t).num : ℚ) / ((b t).den : ℚ) = ((b' t).num : ℚ) / ((b' t).den : ℚ)
    rw [hb t ht]

theorem solve_deterministic_witness :
    solve 1 (fun _ _ => (⟨2, 1⟩ : Frac)) (fun _ => (⟨1, 1⟩ : Frac))
      = solve 1 (fun i j => if i < 1 ∧ j < 1 then (⟨2, 1⟩ : Frac) else ⟨3, 1⟩)
          (fun i => if i < 1 then (⟨1, 1⟩ : Frac) else ⟨5, 1⟩) :=
  solve_deterministic 1 _ _ _ _
    (fun i j => by decide)
    (fun i j => by
      show Frac.Canonical (if i < 1 ∧ j < 1 then (⟨2, 1⟩ : Frac) else ⟨3, 1⟩)
      split <;> decide)
    (fun i => by decide)
    (fun i => by
      show Frac.Canonical (if i < 1 then (⟨1, 1⟩ : Frac) else ⟨5, 1⟩)
      split <;> decide)
    (fun i j hi hj => by
      show (⟨2, 1⟩ : Frac) = if i < 1 ∧ j < 1 then (⟨2, 1⟩ : Frac) else ⟨3, 1⟩
      rw [if_pos ⟨hi, hj⟩])
    (fun i hi => by
      show (⟨1, 1⟩ : Frac) = if i < 1 then (⟨1, 1⟩ : Frac) else ⟨5, 1⟩
      rw [if_pos hi])

/-! #### Frame property of the heap-level approximate solver -/

theorem getD_set_same {α : Type _} (l : List α) (i : ℕ) (v d : α)
    (hi : i < l.length) : (l.set i v).getD i d = v := by
  rw [List.getD_eq_getElem?_getD, List.getElem?_set_self hi]
  rfl

theorem getD_set_ne {α : Type _} (l : List α) (i j : ℕ) (v d : α)
    (hij : i ≠ j) : (l.set i v).getD j d = l.getD j d := by
  rw [List.getD_eq_getElem?_getD, List.getElem?_set_ne hij,
    ← List.getD_eq_getElem?_getD]

theorem getD_append_lt {α : Type _} (l1 l2 : List α) (i : ℕ) (d : α)
    (hi : i < l1.length) : (l1 ++ l2).getD i d = l1.getD i d := by
  rw [List.getD_eq_getElem?_getD, List.getElem?_append_left hi,
    ← List.getD_eq_getElem?_getD]

theorem getD_mem_of_lt {α : Type _} (l : List α) (r : ℕ) (d : α)
    (h : r < l.length) : l.getD r d ∈ l := by
  rw [List.getD_eq_getElem?_getD, List.getElem?_eq_getElem h]
  show l.get ⟨r, h⟩ ∈ l
  exact List.get_mem l r h

theorem hallocList_heap (vs : List (List ℚ)) :
    ∀ h : Heap, (hallocList h vs).1 = h ++ vs := by
  induction vs with
  | nil => intro h; show h = h ++ []; rw [List.append_nil]
  | cons v rest ih =>
    intro h
    show (hallocList (h ++ [v]) rest).1 = h ++ (v :: rest)
    rw [ih (h ++ [v]), List.append_assoc]
    rfl

theorem hallocList_refs (vs : List (List ℚ)) :
    ∀ h : Heap, ∀ r ∈ (hallocList h vs).2, h.length ≤ r := by
  induction vs with
  | nil => intro h r hr; cases hr
  | cons v rest ih =>
    intro h r hr
    rcases List.mem_cons.mp hr with h1 | h1
    · have h2 : (halloc h v).2 = h.length := rfl
      omega
    · have h2 := ih (h ++ [v]) r h1
      rw [List.length_append] at h2
      simp only [List.length_singleton] at h2
      omega

theorem hallocList_refs_length (vs : List (List ℚ)) :
    ∀ h : Heap, (hallocList h vs).2.length = vs.length := by
  induction vs with
  | nil => intro h; rfl
  | cons v rest ih =>
    intro h
    show ((hallocList (h ++ [v]) rest).2.length) + 1 = rest.length + 1
    rw [ih (h ++ [v])]

theorem hwrite_frame (h : Heap) (ref : ℕ) (v : List ℚ) (t : ℕ) (ht : t ≠ ref) :
    (hwrite h ref v).getD t [] = h.getD t [] := by
  unfold hwrite
  exact getD_set_ne h ref t v [] (Ne.symm ht)

theorem entryWrite_frame (h : Heap) (ref c : ℕ) (v : ℚ) (t : ℕ) (ht : t ≠ ref) :
    (entryWrite h ref c v).getD t [] = h.getD t [] := by
  unfold entryWrite
  exact hwrite_frame h ref _ t ht

theorem findMaxLoopH_fst (h : Heap) (mrefs : List ℕ) (colK : ℕ) :
    ∀ (cnt r : ℕ) (best : ℕ × ℚ),
      (findMaxLoopH h mrefs colK r cnt best).1 = best.1 ∨
      (r ≤ (findMaxLoopH h mrefs colK r cnt best).1 ∧
        (findMaxLoopH h mrefs colK r cnt best).1 < r + cnt) := by
  intro cnt
  induction cnt with
  | zero => intro r best; left; rfl
  | succ cnt ih =>
    intro r best
    have hstep : findMaxLoopH h mrefs colK r (cnt + 1) best
        = findMaxLoopH h mrefs colK (r + 1) cnt
          (if best.2 < |entryRead h (mref mrefs r) colK| then
            (r, |entryRead h (mref mrefs r) colK|) else best) := rfl
    rw [hstep]
    by_cases hv : best.2 < |entryRead h (mref mrefs r) colK|
    · rw [if_pos hv]
      rcases ih (r + 1) (r, |entryRead h (mref mrefs r) colK|) with h1 | h1
      · right
        rw [h1]
        exact ⟨le_refl r, show r < r + (cnt + 1) by omega⟩
      · right
        omega
    · rw [if_neg hv]
      rcases ih (r + 1) best with h1 | h1
      · left
        exact h1
      · right
        omega

theorem elimEntriesH_frame (factor : ℚ) (pref rref : ℕ) :
    ∀ (cnt c : ℕ) (h : Heap) (i : ℕ), i ≠ rref →
      (elimEntriesH factor pref rref c cnt h).getD i [] = h.getD i [] := by
  intro cnt
  induction cnt with
  | zero => intro c h i hi; rfl
  | succ cnt ih =>
    intro c h i hi
    have hstep : elimEntriesH factor pref rref c (cnt + 1) h
        = elimEntriesH factor pref rref (c + 1) cnt
          (entryWrite h rref c
            (entryRead h rref c - factor * entryRead h pref c)) := rfl
    rw [hstep, ih (c + 1) _ i hi, entryWrite_frame _ _ _ _ _ hi]

theorem elimRowsH_frame (mrefs : List ℕ) (yref colK n N : ℕ)
    (hm : ∀ r, r < n → N ≤ mref mrefs r) (hy : N ≤ yref) :
    ∀ (cnt i : ℕ) (h : Heap), i + cnt ≤ n →
      ∀ t, t < N → (elimRowsH mrefs yref colK n i cnt h).getD t [] = h.getD t [] := by
  intro cnt
  induction cnt with
  | zero => intro i h hle t ht; rfl
  | succ cnt ih =>
    intro i h hle t ht
    set factor := entryRead h (mref mrefs i) colK
      / entryRead h (mref mrefs colK) colK with hfac
    set h1 := elimEntriesH factor (mref mrefs colK) (mref mrefs i) colK
      (n - colK) h with hh1
    set h2 := entryWrite h1 yref i
      ((hread h1 yref).getD i 0 - factor * (hread h1 yref).getD colK 0) with hh2
    have hstep : elimRowsH mrefs yref colK n i (cnt + 1) h
        = elimRowsH mrefs yref colK n (i + 1) cnt h2 := rfl
    rw [hstep, ih (i + 1) h2 (by omega) t ht, hh2,
      entryWrite_frame _ _ _ _ _ (show t ≠ yref by omega), hh1,
      elimEntriesH_frame _ _ _ _ _ _ _
        (show t ≠ mref mrefs i by
          have := hm i (by omega)
          omega)]

theorem forwardH_frame (yref n N : ℕ) (hy : N ≤ yref) :
    ∀ (cnt k : ℕ) (mrefs : List ℕ) (h : Heap),
      k + cnt = n → mrefs.length = n → (∀ r, r < n → N ≤ mref mrefs r) →
      ∀ t, t < N → (forwardH yref n k cnt mrefs h).2.getD t [] = h.getD t [] := by
  intro cnt
  induction cnt with
  | zero => intro k mrefs h hk hlen hm t ht; rfl
  | succ cnt ih =>
    intro k mrefs h hk hlen hm t ht
    set best := findMaxLoopH h mrefs k (k + 1) (n - (k + 1))
      (k, |entryRead h (mref mrefs k) k|) with hbest
    set mrefs1 := if best.1 ≠ k then
        (mrefs.set k (mref mrefs best.1)).set best.1 (mref mrefs k)
      else mrefs with hm1def
    set h1 := if best.1 ≠ k then
        hwrite h yref
          (((hread h yref).set k ((hread h yref).getD best.1 0)).set best.1
            ((hread h yref).getD k 0))
      else h with hh1def
    set h2 := elimRowsH mrefs1 yref k n (k + 1) (n - (k + 1)) h1 with hh2def
    have hstep : forwardH yref n k (cnt + 1) mrefs h
        = if best.2 = 0 then ((Except.error Err.singularMatrix, h) :
            Except Err (List ℕ) × Heap)
          else forwardH yref n (k + 1) cnt mrefs1 h2 := rfl
    rw [hstep]
    by_cases hz : best.2 = 0
    · rw [if_pos hz]
    · rw [if_neg hz]
      have hkn : k < n := by omega
      have hb1 : best.1 < n := by
        rcases findMaxLoopH_fst h mrefs k (n - (k + 1)) (k + 1)
            (k, |entryRead h (mref mrefs k) k|) with h1 | h1
        · rw [← hbest] at h1
          rw [h1]
          exact hkn
        · rw [← hbest] at h1
          omega
      have hlen1 : mrefs1.length = n := by
        rw [hm1def]
        split_ifs
        · rw [List.length_set, List.length_set]
          exact hlen
        · exact hlen
      have hm1inv : ∀ r, r < n → N ≤ mref mrefs1 r := by
        intro r hr
        rw [hm1def]
        split_ifs with hne
        · unfold mref
          by_cases hr1 : r = best.1
          · subst hr1
            rw [getD_set_same _ _ _ _ (by rw [List.length_set, hlen]; omega)]
            exact hm k hkn
          · rw [getD_set_ne _ _ _ _ _ (Ne.symm hr1)]
            by_cases hrk : r = k
            · subst hrk
              rw [getD_set_same _ _ _ _ (by rw [hlen]; omega)]
              exact hm best.1 hb1
            · rw [getD_set_ne _ _ _ _ _ (Ne.symm hrk)]
              exact hm r hr
        · exact hm r hr
      rw [ih (k + 1) mrefs1 h2 (by omega) hlen1 hm1inv t ht, hh2def,
        elimRowsH_frame mrefs1 yref k n N hm1inv hy (n - (k + 1)) (k + 1) h1
          (by omega) t ht, hh1def]
      split_ifs
      · rw [hwrite_frame _ _ _ _ (show t ≠ yref by omega)]
      · rfl

theorem solveLinearSystemH_frame (h : Heap) (arefs : List ℕ) (bref : ℕ) :
    ∀ t, t < h.length →
      (solveLinearSystemH h arefs bref).2.getD t [] = h.getD t [] := by
  intro t ht
  set n := arefs.length with hn
  set rows := arefs.map fun r => hread h r with hrows
  set p := hallocList h rows with hp
  set q := halloc p.1 (hread p.1 bref) with hq
  have hsnd : (solveLinearSystemH h arefs bref).2
      = (forwardH q.2 n 0 n p.2 q.1).2 := by
    show (match forwardH q.2 n 0 n p.2 q.1 with
      | (.error e, h3) => ((Except.error e : Except Err (List ℚ)), h3)
      | (.ok mrefs1, h3) =>
          ((Except.ok ((List.range n).map
            (backLoopH h3 mrefs1 q.2 n n fun _ => 0)) : Except Err (List ℚ)),
          h3)).2 = (forwardH q.2 n 0 n p.2 q.1).2
    cases hfw : forwardH q.2 n 0 n p.2 q.1 with
    | mk res h3 => cases res <;> rfl
  rw [hsnd]
  have hp1 : p.1 = h ++ rows := hallocList_heap rows h
  have hp1len : p.1.length = h.length + n := by
    rw [hp1, List.length_append, hrows, List.length_map, hn]
  have hy : h.length ≤ q.2 := by
    show h.length ≤ p.1.length
    omega
  have hmlen : p.2.length = n := by
    rw [hp, hallocList_refs_length, hrows, List.length_map, hn]
  have hmref : ∀ r, r < n → h.length ≤ mref p.2 r := by
    intro r hr
    have hmem : p.2.getD r 0 ∈ p.2 := getD_mem_of_lt p.2 r 0 (by rw [hmlen]; omega)
    have h2 := hallocList_refs rows h (p.2.getD r 0) (by rw [← hp]; exact hmem)
    exact h2
  rw [forwardH_frame q.2 n h.length hy n 0 p.2 q.1 (by omega) hmlen hmref t ht]
  show (p.1 ++ [hread p.1 bref]).getD t [] = h.getD t []
  rw [getD_append_lt _ _ _ _ (by omega), hp1, getD_append_lt _ _ _ _ ht]

/-- Claim C7: `solveLinearSystem` never mutates its input matrix `A` or
vector `b`.  In the heap model it works on freshly allocated copies, and
whether the call returns or throws `SingularMatrix`, every array that existed
before the call — in particular each row array of `A` and the array `b` —
holds exactly the values it held before. -/
theorem solveLinearSystem_no_mutation (h : Heap) (arefs : List ℕ) (bref : ℕ)
    (hA : ∀ r ∈ arefs, r < h.length) (hB : bref < h.length) :
    (∀ r ∈ arefs, hread (solveLinearSystemH h arefs bref).2 r = hread h r) ∧
      hread (solveLinearSystemH h arefs bref).2 bref = hread h bref := by
  constructor
  · intro r hr
    exact solveLinearSystemH_frame h arefs bref r (hA r hr)
  · exact solveLinearSystemH_frame h arefs bref bref hB

theorem solveLinearSystem_no_mutation_witness :
    (∀ r ∈ [0, 1], hread (solveLinearSystemH [[(1 : ℚ), 1], [1, 1], [5, 7]] [0, 1] 2).2 r
        = hread [[(1 : ℚ), 1], [1, 1], [5, 7]] r) ∧
      hread (solveLinearSystemH [[(1 : ℚ), 1], [1, 1], [5, 7]] [0, 1] 2).2 2
        = hread [[(1 : ℚ), 1], [1, 1], [5, 7]] 2 :=
  solveLinearSystem_no_mutation [[(1 : ℚ), 1], [1, 1], [5, 7]] [0, 1] 2
    (by decide) (by decide)

theorem identical_rows_both_solvers_fail_witness :
    solveLinearSystem 2 (fun _ _ => 1) (fun _ => 1) = .error .singularMatrix ∧
    solve 2 (liftM fun _ _ => 1) (liftV fun _ => 1) = .error .zeroDenominator :=
  ⟨identical_rows_both_solvers_fail.1 2 _ _
      ⟨0, 1, by omega, by omega, by omega, fun c _ => rfl⟩,
   identical_rows_both_solvers_fail.2 2 _ _
      ⟨0, 1, by omega, by omega, by omega, fun c _ => rfl⟩⟩

end Hive
